import Mathlib

/-!
Verification of the PCFG induction / CKY parsing code in
`src/project1/src/parsing.py` (Python 2).

Modelling conventions (shallow embedding):

* A Python 2 `dict` is modelled as an association list (`OMap`) whose
  entries are kept in insertion order; overwriting a key keeps its
  position, a fresh key is appended at the end.  CPython 2 iterates a
  dict in hash-table order, which for the sentinel classes `TOTAL` and
  `UNKNOWN` depends on object ids and is therefore arbitrary; wherever a
  claim depends on an iteration order, the loop is parametrised by an
  explicit enumeration of the keys (constrained to be a permutation of
  them), and insertion order is used as the canonical choice otherwise.
* CPython 2 raises `RuntimeError: dictionary changed size during
  iteration` as soon as the dict iterator is advanced after a deletion,
  including the final advance that would otherwise end the loop; the
  model reproduces this with a sticky flag.
* `decimal.Decimal` arithmetic is idealised as exact rational (`ℚ`)
  arithmetic; its 28-significant-digit rounding is far below every
  tolerance mentioned by the specification.
* Exceptions are modelled with `Except PyErr`.
-/

/-- Python exceptions that the modelled code can raise. -/
inductive PyErr where
  /-- `RuntimeError: dictionary changed size during iteration`. -/
  | dictChangedSize
  /-- `KeyError` from a failed `dict` lookup. -/
  | keyError
  /-- `TypeError`, e.g. multiplying a `Decimal` by a tuple. -/
  | typeError
  /-- `IndexError`, e.g. `node[1]` on a one-element list. -/
  | indexError
  /-- `RuntimeError("Unknown token: ...")` raised by `rulebased_postag`. -/
  | unknownToken
deriving DecidableEq, Repr

deriving instance DecidableEq for Except

/- `Rat`'s arithmetic is `@[irreducible]` in Batteries, which blocks
`decide` on the model's concrete rational computations; restore
reducibility inside this file only. -/
attribute [local semireducible] Rat.add Rat.mul Rat.sub Rat.inv

/-! ## Insertion-ordered association lists (model of Python dicts) -/

/-- Insertion-ordered map: an association list where each key occurs at
most once and fresh keys are appended at the end. -/
abbrev OMap (α β : Type) := List (α × β)

/-- Lookup in an `OMap` (first matching key). -/
def olookup {α β : Type} [DecidableEq α] : OMap α β → α → Option β
  | [], _ => none
  | (k, v) :: t, a => if k = a then some v else olookup t a

/-- Python dict assignment `m[a] = b`: overwrite in place, else append. -/
def oset {α β : Type} [DecidableEq α] : OMap α β → α → β → OMap α β
  | [], a, b => [(a, b)]
  | (k, v) :: t, a, b => if k = a then (k, b) :: t else (k, v) :: oset t a b

/-- Python `del m[a]`: remove the key (no error handling needed here:
call sites only delete present keys). -/
def odel {α β : Type} [DecidableEq α] : OMap α β → α → OMap α β
  | [], _ => []
  | (k, v) :: t, a => if k = a then t else (k, v) :: odel t a

/-- The keys of an `OMap`, in insertion order (Python `m.keys()`). -/
def okeys {α β : Type} (m : OMap α β) : List α := m.map Prod.fst

/-- Membership test `a in m`. -/
def omem {α β : Type} [DecidableEq α] (m : OMap α β) (a : α) : Bool :=
  (olookup m a).isSome

theorem olookup_oset_self {α β : Type} [DecidableEq α]
    (m : OMap α β) (a : α) (b : β) : olookup (oset m a b) a = some b := by
  induction m with
  | nil => simp [oset, olookup]
  | cons h t ih =>
    obtain ⟨k, v⟩ := h
    by_cases hk : k = a
    · subst hk; simp [oset, olookup]
    · simp [oset, olookup, hk, ih]

theorem olookup_oset_ne {α β : Type} [DecidableEq α]
    (m : OMap α β) (a a' : α) (b : β) (h : a ≠ a') :
    olookup (oset m a b) a' = olookup m a' := by
  induction m with
  | nil => simp [oset, olookup, h]
  | cons hd t ih =>
    obtain ⟨k, v⟩ := hd
    by_cases hk : k = a
    · subst hk; simp [oset, olookup, h]
    · simp [oset, olookup, hk, ih]

theorem okeys_oset_mem {α β : Type} [DecidableEq α]
    (m : OMap α β) (a : α) (b : β) (h : a ∈ okeys m) :
    okeys (oset m a b) = okeys m := by
  induction m with
  | nil => simp [okeys] at h
  | cons hd t ih =>
    obtain ⟨k, v⟩ := hd
    by_cases hk : k = a
    · subst hk; simp [oset, okeys]
    · have hsplit : a = k ∨ a ∈ okeys t := by simpa [okeys] using h
      have ht : a ∈ okeys t := by
        rcases hsplit with h' | h'
        · exact absurd h'.symm hk
        · exact h'
      simp only [oset, if_neg hk, okeys, List.map_cons]
      have := ih ht
      simp only [okeys] at this
      rw [this]

theorem okeys_oset_not_mem {α β : Type} [DecidableEq α]
    (m : OMap α β) (a : α) (b : β) (h : a ∉ okeys m) :
    okeys (oset m a b) = okeys m ++ [a] := by
  induction m with
  | nil => simp [oset, okeys]
  | cons hd t ih =>
    obtain ⟨k, v⟩ := hd
    have hk : k ≠ a := by
      intro hk; exact h (by simp [okeys, hk])
    have ht : a ∉ okeys t := by
      intro ht'
      apply h
      simp only [okeys, List.map_cons, List.mem_cons]
      exact Or.inr (by simpa [okeys] using ht')
    simp only [oset, if_neg hk, okeys, List.map_cons, List.cons_append]
    have := ih ht
    simp only [okeys] at this
    rw [this]

theorem olookup_isSome_iff_mem {α β : Type} [DecidableEq α]
    (m : OMap α β) (a : α) : (olookup m a).isSome ↔ a ∈ okeys m := by
  induction m with
  | nil => simp [olookup, okeys]
  | cons hd t ih =>
    obtain ⟨k, v⟩ := hd
    by_cases hk : k = a
    · subst hk; simp [olookup, okeys]
    · simp [olookup, okeys, hk, ih, Ne.symm hk]

theorem olookup_eq_none_of_not_mem {α β : Type} [DecidableEq α]
    (m : OMap α β) (a : α) (h : a ∉ okeys m) : olookup m a = none := by
  have := (olookup_isSome_iff_mem m a).not.mpr h
  cases he : olookup m a with
  | none => rfl
  | some b => exact absurd (by simp [he]) this

theorem nodup_okeys_oset {α β : Type} [DecidableEq α]
    (m : OMap α β) (a : α) (b : β) (h : (okeys m).Nodup) :
    (okeys (oset m a b)).Nodup := by
  by_cases hm : a ∈ okeys m
  · rw [okeys_oset_mem m a b hm]; exact h
  · rw [okeys_oset_not_mem m a b hm]
    simpa [List.nodup_append] using ⟨h, hm⟩

/-! ## Trees (model of the nested-list trees produced by `get_tree`) -/

/-- A parse-tree node as consumed by `deduce_grammar`: the nested list
`[label, tok]` with `node[1]` a string is a terminal, the nested list
`[label, c1, ..., ck]` with `node[1]` a list is a nonterminal.  A
childless `[label]` (on which the code would raise `IndexError`) is
represented as `node label []`. -/
inductive PTree where
  | term (label : String) (tok : String)
  | node (label : String) (children : List PTree)
deriving Repr

/-- `node[0]`. -/
def PTree.rootLabel : PTree → String
  | .term l _ => l
  | .node l _ => l

mutual
/-- Size measure used for the worklist termination argument. -/
def ptSize : PTree → Nat
  | .term _ _ => 1
  | .node _ cs => 1 + ptSizeL cs
/-- Sum of sizes of a list of trees. -/
def ptSizeL : List PTree → Nat
  | [] => 0
  | t :: ts => ptSize t + ptSizeL ts
end

/-- Total size of a worklist of trees. -/
def qSize (q : List PTree) : Nat := ptSizeL q

theorem ptSizeL_append (a b : List PTree) :
    ptSizeL (a ++ b) = ptSizeL a + ptSizeL b := by
  induction a with
  | nil => simp [ptSizeL]
  | cons t ts ih => simp [ptSizeL, ih]; ring

theorem ptSizeL_reverse (a : List PTree) : ptSizeL a.reverse = ptSizeL a := by
  induction a with
  | nil => rfl
  | cons t ts ih =>
    simp [List.reverse_cons, ptSizeL_append, ptSizeL, ih]; ring

theorem ptSize_pos (t : PTree) : 1 ≤ ptSize t := by
  cases t with
  | term _ _ => simp [ptSize]
  | node _ cs => simp [ptSize]

/-! ## Grammar induction: counting phase (`parsing.py` lines 107-133) -/

/-- Keys of the per-parent rule table: either a tuple of child labels,
or one of the sentinel classes `TOTAL` / `UNKNOWN`. -/
inductive RKey where
  | seq (cs : List String)
  | TOTAL
  | UNKNOWN
deriving DecidableEq, Repr

/-- Is a rule-table key a real child-label sequence (not bookkeeping)? -/
def RKey.isSeq : RKey → Bool
  | .seq _ => true
  | _ => false

/-- State threaded through the counting worklist loop: the
`terminal_symbols` and `nonterminal_symbols` accumulation lists and the
`rules` table of raw counts. -/
structure CountSt where
  term_syms : List String
  nonterm_syms : List String
  rules : OMap String (OMap RKey ℚ)
deriving DecidableEq, Repr

/-- The fresh per-parent table `{TOTAL: ZERO, UNKNOWN: ONE}`. -/
def initTbl : OMap RKey ℚ := [(RKey.TOTAL, 0), (RKey.UNKNOWN, 1)]

/-- `rules[node_label][child_labels] += ONE; rules[node_label][TOTAL] += ONE`
with the two preceding `not in` initialisations. -/
def bumpRule (rules : OMap String (OMap RKey ℚ)) (lab : String)
    (ck : RKey) : OMap String (OMap RKey ℚ) :=
  let tbl0 := (olookup rules lab).getD initTbl
  let tbl1 := if omem tbl0 ck then tbl0 else oset tbl0 ck 0
  let tbl2 := oset tbl1 ck ((olookup tbl1 ck).getD 0 + 1)
  let tbl3 := oset tbl2 RKey.TOTAL ((olookup tbl2 RKey.TOTAL).getD 0 + 1)
  oset rules lab tbl3

/-- One worklist iteration of the `while queue` loop, processing the
popped node.  The Lean queue is the Python queue reversed, so Python's
`queue.pop()` (from the end) is the head here, and Python's
`queue.append(child)` for `child in node[1:]` makes the children appear
at the head in reverse order.  The recursion is structural on a fuel
argument so that concrete corpora evaluate by reduction; each step
shrinks `qSize` by exactly one (a terminal of size 1 is removed, a
nonterminal of size `1 + s` is replaced by children of total size `s`),
so fuel `qSize q` always suffices (`drainF_enough`). -/
def drainF : Nat → List PTree → CountSt → Option (Except PyErr CountSt)
  | _, [], st => some (.ok st)
  | 0, _ :: _, _ => none
  | fuel + 1, .term lab tok :: rest, st =>
      drainF fuel rest
        { term_syms := st.term_syms ++ [tok]
          nonterm_syms := st.nonterm_syms ++ [lab]
          rules := bumpRule st.rules lab (.seq [tok]) }
  | _ + 1, .node _ [] :: _, _ => some (.error .indexError)
  | fuel + 1, .node lab (c :: cs) :: rest, st =>
      drainF fuel ((c :: cs).reverse ++ rest)
        { term_syms := st.term_syms
          nonterm_syms := st.nonterm_syms ++ [lab]
          rules := bumpRule st.rules lab (.seq ((c :: cs).map PTree.rootLabel)) }

theorem drainF_enough : ∀ (fuel : Nat) (q : List PTree) (st : CountSt),
    qSize q ≤ fuel → (drainF fuel q st).isSome := by
  intro fuel
  induction fuel with
  | zero =>
    intro q st h
    cases q with
    | nil => simp [drainF]
    | cons t rest =>
      exfalso
      have h1 := ptSize_pos t
      simp only [qSize, ptSizeL] at h
      omega
  | succ n ih =>
    intro q st h
    cases q with
    | nil => simp [drainF]
    | cons t rest =>
      cases t with
      | term lab tok =>
        simp only [drainF]
        apply ih
        simp only [qSize, ptSizeL, ptSize] at h ⊢
        omega
      | node lab cs =>
        cases cs with
        | nil => simp [drainF]
        | cons c cs' =>
          simp only [drainF]
          apply ih
          simp only [qSize, ptSizeL_append, ptSizeL_reverse, ptSizeL, ptSize] at h ⊢
          omega

/-- The worklist loop with its always-sufficient fuel. -/
def drain (q : List PTree) (st : CountSt) : Except PyErr CountSt :=
  (drainF (qSize q) q st).getD (.ok st)

/-- The counting phase of `deduce_grammar` on a corpus: Python's
`queue = list(tree_collection)` pops from the end, so the Lean worklist
starts from the reversed corpus. -/
def countPhase (corpus : List PTree) : Except PyErr CountSt :=
  drain corpus.reverse ⟨[], [], []⟩

/-! ## Grammar induction: normalisation and reverse index
(`parsing.py` lines 134-141) -/

/-- Normalise one parent's table: every key that `is not TOTAL`
(so including `UNKNOWN`) is divided by the parent's `TOTAL` count. -/
def normTbl (tbl : OMap RKey ℚ) : OMap RKey ℚ :=
  let total := (olookup tbl RKey.TOTAL).getD 0
  tbl.map fun p => if p.1 = RKey.TOTAL then p else (p.1, p.2 / total)

/-- The normalised rules table (the in-place divisions of the
`for node_label in rules` loop). -/
def rulesNorm (rules : OMap String (OMap RKey ℚ)) :
    OMap String (OMap RKey ℚ) :=
  rules.map fun p => (p.1, normTbl p.2)

/-- `reverse_lookup[child_labels][node_label] = rules[node_label][child_labels]`
for every non-`TOTAL` key of one parent's normalised table. -/
def invTblStep (rev : OMap RKey (OMap String ℚ)) (lab : String)
    (tbl : OMap RKey ℚ) : OMap RKey (OMap String ℚ) :=
  tbl.foldl
    (fun rv p =>
      if p.1 = RKey.TOTAL then rv
      else oset rv p.1 (oset ((olookup rv p.1).getD []) lab p.2))
    rev

/-- The full `reverse_lookup` built while normalising (iterating parents
in the table's order, keys in each table's order). -/
def buildRev (rulesN : OMap String (OMap RKey ℚ)) :
    OMap RKey (OMap String ℚ) :=
  rulesN.foldl (fun rv p => invTblStep rv p.1 p.2) []

/-! ## Grammar induction: part-of-speech extraction and the buggy
filter loop (`parsing.py` lines 142-157) -/

/-- `parts_of_speech`: for every recorded terminal occurrence, the
parents found under `reverse_lookup[terminal,]`, collected into a
Python `set`; modelled as a deduplicated list in first-encounter order
(the set's true iteration order is hash-dependent, which is why the
filter loop below is parametrised by an enumeration). -/
def posListOf (term_syms : List String)
    (rev : OMap RKey (OMap String ℚ)) : List String :=
  (term_syms.foldl
    (fun acc t => acc ++ okeys ((olookup rev (RKey.seq [t])).getD []))
    []).dedup

/-- A value stored in a rule table.  After induction these are numbers,
but the buggy line
`rules[pos][UNKNOWN] = min(rules[pos].items(), key=lambda item: item[1])`
stores a whole `(key, value)` item, so the model's value type admits
both (Python is dynamically typed). -/
inductive RVal where
  | num (q : ℚ)
  | pair (k : RKey) (q : ℚ)
deriving DecidableEq, Repr

/-- Python 2 comparison of two rule-table values: two `Decimal`s compare
numerically; a `Decimal` compares below a tuple (CPython 2 falls back to
ordering by type name, and "Decimal" < "tuple").  Two stored tuples are
never compared on any modelled path; their tie-break uses the numeric
component. -/
def rvalLT : RVal → RVal → Bool
  | .num a, .num b => a < b
  | .num _, .pair _ _ => true
  | .pair _ _, .num _ => false
  | .pair _ a, .pair _ b => a < b

/-- Python `min(items, key=lambda item: item[1])`: the first item whose
value is minimal. -/
def minItem : List (RKey × RVal) → Option (RKey × RVal)
  | [] => none
  | x :: xs =>
      match minItem xs with
      | none => some x
      | some m => if rvalLT m.2 x.2 then some m else some x

/-- A rule table with every count re-typed as a plain number, the state
in which the filter loop first sees it. -/
def toRVal (tbl : OMap RKey ℚ) : OMap RKey RVal :=
  tbl.map fun p => (p.1, RVal.num p.2)

/-- The inner `for child_labels in rules[part_of_speech]` loop of the
filter phase, iterating the given enumeration `ord` of the table's keys
(CPython 2 visits dict keys in hash order; `ord` is that order).
`sizeChanged` is the sticky flag of the dict iterator: once
`del rules[pos][TOTAL]` has run, the next advance of the iterator —
including the final advance that would end the loop — raises
`RuntimeError: dictionary changed size during iteration`.  Returns the
mutated table, whether `parts_of_speech.remove` ran (the `break`
branch), and the error if one was raised. -/
def posInner (ord : List RKey) (tbl : OMap RKey RVal) (sizeChanged : Bool) :
    OMap RKey RVal × Bool × Option PyErr :=
  match ord with
  | [] => (tbl, false, if sizeChanged then some .dictChangedSize else none)
  | k :: rest =>
      if sizeChanged then (tbl, false, some .dictChangedSize)
      else
        match k with
        | RKey.TOTAL => posInner rest (odel tbl RKey.TOTAL) true
        | RKey.UNKNOWN =>
            let m := (minItem tbl).getD (RKey.UNKNOWN, RVal.num 0)
            let v : RVal :=
              match m.2 with
              | RVal.num q => RVal.pair m.1 q
              | RVal.pair k' q => RVal.pair k' q
            posInner rest (oset tbl RKey.UNKNOWN v) sizeChanged
        | RKey.seq cs =>
            if cs.length > 1 then (tbl, true, none)
            else posInner rest tbl sizeChanged

/-- The outer `for part_of_speech in parts_of_speech.copy()` loop.
`outOrd` is the iteration order of the copied set (hash-dependent in
CPython 2); `inOrdF` gives the key iteration order of each inner dict.
Returns the mutated rules table, the surviving `parts_of_speech` list,
and the first raised error, if any. -/
def filterLoop (inOrdF : String → List RKey → List RKey) :
    List String → OMap String (OMap RKey RVal) → List String →
    OMap String (OMap RKey RVal) × List String × Option PyErr
  | [], rules, posL => (rules, posL, none)
  | p :: rest, rules, posL =>
      let tbl := (olookup rules p).getD []
      let res := posInner (inOrdF p (okeys tbl)) tbl false
      let rules' := oset rules p res.1
      let posL' := if res.2.1 then posL.erase p else posL
      match res.2.2 with
      | some e => (rules', posL', some e)
      | none => filterLoop inOrdF rest rules' posL'

/-- The grammar value assembled at `parsing.py` lines 158-163. -/
structure Grammar where
  terminals : List String
  nonterminals : List String
  rules : OMap String (OMap RKey RVal)
  start_symbol : String
  revrules : OMap RKey (OMap String ℚ)
  pos : List String
deriving DecidableEq, Repr

/-- Normalised rules after the counting phase (`parsing.py`
lines 134-137). -/
def normStage (st : CountSt) : OMap String (OMap RKey ℚ) :=
  rulesNorm st.rules

/-- The `reverse_lookup` built at lines 138-141. -/
def revStage (st : CountSt) : OMap RKey (OMap String ℚ) :=
  buildRev (normStage st)

/-- The `parts_of_speech` set of lines 142-145 (as a list in
first-encounter order; see `posListOf`). -/
def posStage (st : CountSt) : List String :=
  posListOf st.term_syms (revStage st)

/-- The filter loop of lines 146-157 applied to the normalised state,
for the given set/dict enumeration orders.  Its first component is the
state of `rules` when the loop stops or raises (the in-place mutations
that an exception would otherwise discard). -/
def filterStage (outF : List String → List String)
    (inF : String → List RKey → List RKey) (st : CountSt) :
    OMap String (OMap RKey RVal) × List String × Option PyErr :=
  filterLoop inF (outF (posStage st))
    ((normStage st).map fun p => (p.1, toRVal p.2)) (posStage st)

/-- `deduce_grammar`, parametrised by the two hash-dependent iteration
orders of the filter phase: `outF` reorders the part-of-speech set
enumeration, `inF` reorders each rule table's key enumeration.  Every
other loop of the function is insensitive to dict order except through
entry order, for which insertion order is used. -/
def deduce_grammarO (outF : List String → List String)
    (inF : String → List RKey → List RKey) (corpus : List PTree) :
    Except PyErr Grammar :=
  match corpus with
  | [] => .error .indexError
  | t0 :: _ =>
      match countPhase corpus with
      | .error e => .error e
      | .ok st =>
          let res := filterStage outF inF st
          match res.2.2 with
          | some e => .error e
          | none =>
              .ok { terminals := st.term_syms.dedup
                    nonterminals := st.nonterm_syms.dedup
                    rules := res.1
                    start_symbol := t0.rootLabel
                    revrules := revStage st
                    pos := res.2.1 }

/-- `deduce_grammar` with the canonical (insertion-order) enumerations. -/
def deduce_grammar (corpus : List PTree) : Except PyErr Grammar :=
  deduce_grammarO id (fun _ ks => ks) corpus

/-! ## Rule-based part-of-speech guesser (`parsing.py` lines 170-216) -/

/-- Decimal digit test used by the float-literal model. -/
def pyIsDigit (c : Char) : Bool := '0' ≤ c && c ≤ '9'

/-- Python whitespace stripped by `float()`. -/
def pyIsSpace (c : Char) : Bool :=
  c = ' ' || c = '\t' || c = '\n' || c = '\r' || c = '\x0b' || c = '\x0c'

/-- Drop one optional leading sign. -/
def dropSign : List Char → List Char
  | [] => []
  | c :: rest => if c = '+' || c = '-' then rest else c :: rest

/-- Case-insensitive comparison against a lowercase word. -/
def lcEq (s : List Char) (t : List Char) : Bool :=
  (s.map Char.toLower) == t

/-- Split a float literal at the first `e`/`E`. -/
def splitExp : List Char → List Char × Option (List Char)
  | [] => ([], none)
  | c :: rest =>
      if c = 'e' || c = 'E' then ([], some rest)
      else
        let r := splitExp rest
        (c :: r.1, r.2)

/-- Mantissa syntax: `digits [. digits*]` or `[digits] . digits+`. -/
def mantOk (cs : List Char) : Bool :=
  let intPart := cs.takeWhile pyIsDigit
  match cs.drop intPart.length with
  | [] => !intPart.isEmpty
  | '.' :: frac => (!intPart.isEmpty || !frac.isEmpty) && frac.all pyIsDigit
  | _ => false

/-- Exponent syntax: optional sign then at least one digit. -/
def expOk (cs : List Char) : Bool :=
  let cs' := dropSign cs
  !cs'.isEmpty && cs'.all pyIsDigit

/-- Model of CPython 2 `float(token)` acceptance: surrounding
whitespace, optional sign, a decimal mantissa with optional exponent,
or `inf` / `infinity` / `nan` case-insensitively.  `is_number` in the
source calls `float(token)` on the whole token (its `split(':')` loop
re-tests the same string), so it accepts exactly these strings. -/
def pyFloatOk (s : String) : Bool :=
  let cs := ((s.data.dropWhile pyIsSpace).reverse.dropWhile pyIsSpace).reverse
  let cs := dropSign cs
  if lcEq cs "inf".data || lcEq cs "infinity".data || lcEq cs "nan".data then
    true
  else
    match splitExp cs with
    | (m, none) => mantOk m
    | (m, some ex) => mantOk m && expOk ex

/-- `is_number` (`parsing.py` lines 179-185). -/
def is_number (tok : String) : Bool := pyFloatOk tok

/-- `token.endswith(suffix)`. -/
def pyEndsWith (tok suf : String) : Bool := suf.data.isSuffixOf tok.data

/-- `ending(word_ends)`: `max(map(token.endswith, word_ends))`. -/
def ending (ends : List String) (tok : String) : Bool :=
  ends.any (pyEndsWith tok)

/-- `starting(word_inits)`: `max(map(token.startswith, word_inits))`. -/
def starting (inits : List String) (tok : String) : Bool :=
  inits.any (fun p => p.data.isPrefixOf tok.data)

/-- Contiguous-substring test (Python `substr in token`). -/
def listIsInfix (sub : List Char) : List Char → Bool
  | [] => sub.isEmpty
  | c :: rest => sub.isPrefixOf (c :: rest) || listIsInfix sub rest

/-- `contains(substrs)`: `max(substr in token for substr in substrs)`. -/
def pyContains (subs : List String) (tok : String) : Bool :=
  subs.any (fun sub => listIsInfix sub.data tok.data)

/-- `is_in(tokens)`: membership of the whole token. -/
def is_in (toks : List String) (tok : String) : Bool := toks.contains tok

/-- `of_length(length)`. -/
def of_length (n : Nat) (tok : String) : Bool := tok.length = n

/-- The 26 uppercase initials passed to `starting`. -/
def upperInits : List String :=
  ["A","B","C","D","E","F","G","H","I","J","K","L","M",
   "N","O","P","Q","R","S","T","U","V","W","X","Y","Z"]

/-- The `pos_guesses` table (`parsing.py` lines 188-209) in the order it
is written.  In the source it is a `dict` whose keys are function
objects, so CPython 2 iterates it in an arbitrary id-dependent order;
functions taking the order as a parameter quantify over permutations of
this list. -/
def pos_guesses : List ((String → Bool) × List String) :=
  [ (is_number, ["CD"]),
    (is_in ["€", "¤", "¢", "£", "₤"], ["$"]),
    (ending ["able"], ["JJ"]),
    (ending ["ed"], ["VBG", "VBN"]),
    (ending ["y"], ["RB"]),
    (ending ["ier"], ["RBR"]),
    (ending ["iest"], ["RBS"]),
    (ending ["ion"], ["NN", "NNP"]),
    (ending ["er"], ["JJR", "NN"]),
    (ending ["ist"], ["JJS", "NN", "NNP"]),
    (ending ["ing"], ["VBG", "NN", "NNP", "JJ"]),
    (ending ["s"], ["NNS", "NNPS", "VBZ"]),
    (of_length 1, ["SYM"]),
    (starting upperInits, ["NNP", "NNPS"]),
    (pyContains ["-"], ["NNP", "JJ", "VB"]),
    (fun _ => true, ["NNP", "NNPS"]) ]

/-- `rulebased_postag` iterating a given enumeration of the
`pos_guesses` dict: the first predicate that matches wins; if none
matches the function raises `RuntimeError("Unknown token: ...")`. -/
def rulebased_postagO (ord : List ((String → Bool) × List String))
    (tok : String) : Except PyErr (List String) :=
  match ord with
  | [] => .error .unknownToken
  | (p, ls) :: rest => if p tok then .ok ls else rulebased_postagO rest tok

/-- `rulebased_postag` with the table's written order. -/
def rulebased_postag (tok : String) : Except PyErr (List String) :=
  rulebased_postagO pos_guesses tok

/-! ## The CKY chart parser (`parsing.py` lines 218-272) -/

/-- `chartItem = collections.namedtuple("chartItem", "prob split children")`. -/
structure chartItem where
  prob : RVal
  split : Nat
  children : List String
deriving DecidableEq, Repr

/-- One chart cell: label to best item. -/
abbrev Cell := OMap String chartItem

/-- The chart: half-open span to cell. -/
abbrev Chart := OMap (Nat × Nat) Cell

/-- The inner defaultdict's default item `chartItem(-1, 0, [':('])`. -/
def sentinelItem : chartItem := ⟨RVal.num (-1), 0, [":("]⟩

/-- Outer defaultdict access `chart[begin, end]`: reading an absent span
inserts a fresh empty cell. -/
def chartCell (chart : Chart) (sp : Nat × Nat) : Cell × Chart :=
  match olookup chart sp with
  | some c => (c, chart)
  | none => ([], oset chart sp [])

/-- Inner defaultdict access `chart[begin, end][label]`: reading an
absent label inserts the sentinel item. -/
def cellGet (cell : Cell) (lab : String) : chartItem × Cell :=
  match olookup cell lab with
  | some it => (it, cell)
  | none => (sentinelItem, oset cell lab sentinelItem)

/-- Python 2 `storedProb < p` where `storedProb` may be the buggy tuple:
a tuple never compares below a `Decimal`. -/
def rvalLTq (v : RVal) (p : ℚ) : Bool :=
  match v with
  | .num q => q < p
  | .pair _ _ => false

/-- Python 2 `p > storedProb`: a `Decimal` never compares above a tuple. -/
def qGTrval (p : ℚ) (v : RVal) : Bool :=
  match v with
  | .num q => p > q
  | .pair _ _ => false

/-- `Decimal * storedProb`: multiplying by a stored tuple raises
`TypeError`. -/
def qMulRval (p : ℚ) (v : RVal) : Except PyErr ℚ :=
  match v with
  | .num q => .ok (p * q)
  | .pair _ _ => .error .typeError

/-- Outcome of a fuelled parsing computation. -/
inductive POut (α : Type) where
  | fuelOut
  | err (e : PyErr)
  | ok (a : α)
deriving DecidableEq, Repr

/-- The `for A, p_AB in revrules[B, ].iteritems()` loop of
`check_unaries`: `chart[begin, end][B].prob` is re-read for every
parent (an earlier update may have changed it when `A` aliases `B`'s
ancestors), and probing the target label `A` inserts the sentinel item
when `A` is absent. -/
def unariesParents (e : Nat) (B : String) :
    List (String × ℚ) → Cell → Bool → Except PyErr (Cell × Bool)
  | [], cell, added => .ok (cell, added)
  | (A, pAB) :: rest, cell, added =>
      let rB := cellGet cell B
      match qMulRval pAB rB.1.prob with
      | .error er => .error er
      | .ok prob =>
          let rA := cellGet rB.2 A
          if qGTrval prob rA.1.prob then
            unariesParents e B rest (oset rA.2 A ⟨.num prob, e, [B]⟩) true
          else
            unariesParents e B rest rA.2 added

/-- One `for B in chart[begin, end].keys()` pass of `check_unaries`
over a snapshot of the cell's keys. -/
def unariesPassGo (rev : OMap RKey (OMap String ℚ)) (e : Nat) :
    List String → Cell → Bool → Except PyErr (Cell × Bool)
  | [], cell, added => .ok (cell, added)
  | B :: rest, cell, added =>
      match olookup rev (RKey.seq [B]) with
      | none => unariesPassGo rev e rest cell added
      | some parents =>
          match unariesParents e B parents cell added with
          | .error er => .error er
          | .ok r => unariesPassGo rev e rest r.1 r.2

/-- One full pass of the `while added` loop (keys snapshotted at pass
start, as `keys()` builds a list in Python 2). -/
def unariesPass (rev : OMap RKey (OMap String ℚ)) (e : Nat) (cell : Cell) :
    Except PyErr (Cell × Bool) :=
  unariesPassGo rev e (okeys cell) cell false

/-- `check_unaries` on one cell: repeat passes until one makes no
update.  The loop has no bound in the source; the model adds fuel and
reports exhaustion as `POut.fuelOut`. -/
def check_unaries (fuel : Nat) (rev : OMap RKey (OMap String ℚ)) (e : Nat)
    (cell : Cell) : POut Cell :=
  match fuel with
  | 0 => .fuelOut
  | fuel + 1 =>
      match unariesPass rev e cell with
      | .error er => .err er
      | .ok (cell', added) =>
          if added then check_unaries fuel rev e cell' else .ok cell'

/-- Chart-level `check_unaries(grammar, chart, begin, end)`. -/
def checkUnariesChart (fuel : Nat) (rev : OMap RKey (OMap String ℚ))
    (chart : Chart) (b e : Nat) : POut Chart :=
  let pr := chartCell chart (b, e)
  match check_unaries fuel rev e pr.1 with
  | .fuelOut => .fuelOut
  | .err er => .err er
  | .ok cell' => .ok (oset pr.2 (b, e) cell')

/-- Seeding a seen token (`parsing.py` lines 241-245): for every
`(root, prob)` in `revrules[token,]`, keep the better item; probing the
cell inserts the sentinel first, and `-1 < prob` then decides whether
it is replaced. -/
def seedKnown (tok : String) (e : Nat) :
    List (String × ℚ) → Cell → Cell
  | [], cell => cell
  | (root, prob) :: rest, cell =>
      let r := cellGet cell root
      if rvalLTq r.1.prob prob then
        seedKnown tok e rest (oset r.2 root ⟨.num prob, e, [tok]⟩)
      else
        seedKnown tok e rest r.2

/-- Seeding an unseen token (`parsing.py` lines 246-253): every guessed
tag is looked up directly in `rules` — `rules[tag]` raises `KeyError`
when the tag is not a parent of the grammar, and `rules[tag][UNKNOWN]`
raises `KeyError` when the table has no `UNKNOWN` entry; the cell entry
is assigned unconditionally. -/
def seedUnknown (rules : OMap String (OMap RKey RVal)) (tok : String)
    (e : Nat) : List String → Cell → Except PyErr Cell
  | [], cell => .ok cell
  | tag :: rest, cell =>
      match olookup rules tag with
      | none => .error .keyError
      | some tbl =>
          match olookup tbl RKey.UNKNOWN with
          | none => .error .keyError
          | some v => seedUnknown rules tok e rest (oset cell tag ⟨v, e, [tok]⟩)

/-- The body of the seeding loop for one token (`parsing.py`
lines 240-254), including the per-cell unary closure. -/
def seedToken (fuel : Nat) (ordT : List ((String → Bool) × List String))
    (g : Grammar) (i : Nat) (tok : String) (chart : Chart) : POut Chart :=
  match olookup g.revrules (RKey.seq [tok]) with
  | some parents =>
      let pr := chartCell chart (i, i + 1)
      let cell' := seedKnown tok (i + 1) parents pr.1
      checkUnariesChart fuel g.revrules (oset pr.2 (i, i + 1) cell') i (i + 1)
  | none =>
      match rulebased_postagO ordT tok with
      | .error er => .err er
      | .ok tags =>
          let pr := chartCell chart (i, i + 1)
          match seedUnknown g.rules tok (i + 1) tags pr.1 with
          | .error er => .err er
          | .ok cell' =>
              checkUnariesChart fuel g.revrules (oset pr.2 (i, i + 1) cell') i (i + 1)

/-- The `for index, token in enumerate(tokens)` seeding loop. -/
def seedAll (fuel : Nat) (ordT : List ((String → Bool) × List String))
    (g : Grammar) : Nat → List String → Chart → POut Chart
  | _, [], chart => .ok chart
  | i, tok :: rest, chart =>
      match seedToken fuel ordT g i tok chart with
      | .ok chart' => seedAll fuel ordT g (i + 1) rest chart'
      | .err er => .err er
      | .fuelOut => .fuelOut

/-- The `for root, prob in revrules[B, C].items()` loop (`parsing.py`
lines 265-270): `p_ = p_B * p_C * prob` raises `TypeError` when a
stored probability is the buggy tuple; probing the target label inserts
the sentinel, and `p_root < p_` decides replacement. -/
def binParents (split : Nat) (pB pC : RVal) (B C : String) :
    List (String × ℚ) → Cell → Except PyErr Cell
  | [], cell => .ok cell
  | (root, prob) :: rest, cell =>
      match pB, pC with
      | .num b, .num c =>
          let p2 := b * c * prob
          let r := cellGet cell root
          if rvalLTq r.1.prob p2 then
            binParents split pB pC B C rest (oset r.2 root ⟨.num p2, split, [B, C]⟩)
          else
            binParents split pB pC B C rest r.2
      | _, _ => .error .typeError

/-- The `for C in chart[split, end]` loop for a fixed `B`.  `cellBS` and
`cellSE` are the (unchanging) source cells, `cell` the target cell
`(begin, end)` being built. -/
def binCs (rev : OMap RKey (OMap String ℚ)) (split : Nat)
    (cellBS cellSE : Cell) (B : String) :
    List String → Cell → Except PyErr Cell
  | [], cell => .ok cell
  | C :: rest, cell =>
      match olookup rev (RKey.seq [B, C]) with
      | none => binCs rev split cellBS cellSE B rest cell
      | some parents =>
          let pB := ((olookup cellBS B).getD sentinelItem).prob
          let pC := ((olookup cellSE C).getD sentinelItem).prob
          match binParents split pB pC B C parents cell with
          | .error er => .error er
          | .ok cell' => binCs rev split cellBS cellSE B rest cell'

/-- The `for B in chart[begin, split]` loop. -/
def binBs (rev : OMap RKey (OMap String ℚ)) (split : Nat)
    (cellBS cellSE : Cell) :
    List String → Cell → Except PyErr Cell
  | [], cell => .ok cell
  | B :: rest, cell =>
      match binCs rev split cellBS cellSE B (okeys cellSE) cell with
      | .error er => .error er
      | .ok cell' => binBs rev split cellBS cellSE rest cell'

/-- One iteration of the `for split in range(begin + 1, end)` loop,
including the `check_unaries` call that sits inside it
(`parsing.py` lines 259-271).  The two source cells and the target cell
are materialised first (the outer defaultdict creates empty cells for
probed spans). -/
def binSplit (fuel : Nat) (rev : OMap RKey (OMap String ℚ))
    (b split e : Nat) (chart : Chart) : POut Chart :=
  let prBS := chartCell chart (b, split)
  let prSE := chartCell prBS.2 (split, e)
  let prBE := chartCell prSE.2 (b, e)
  match binBs rev split prBS.1 prSE.1 (okeys prBS.1) prBE.1 with
  | .error er => .err er
  | .ok cell' =>
      checkUnariesChart fuel rev (oset prBE.2 (b, e) cell') b e

/-- The split loop for one `(begin, end)` span. -/
def binSplits (fuel : Nat) (rev : OMap RKey (OMap String ℚ)) (b e : Nat) :
    List Nat → Chart → POut Chart
  | [], chart => .ok chart
  | s :: rest, chart =>
      match binSplit fuel rev b s e chart with
      | .ok chart' => binSplits fuel rev b e rest chart'
      | .err er => .err er
      | .fuelOut => .fuelOut

/-- The `for begin in range(nwords - span)` loop. -/
def binBegins (fuel : Nat) (rev : OMap RKey (OMap String ℚ)) (span : Nat) :
    List Nat → Chart → POut Chart
  | [], chart => .ok chart
  | b :: rest, chart =>
      match binSplits fuel rev b (b + span) (List.range' (b + 1) (span - 1)) chart with
      | .ok chart' => binBegins fuel rev span rest chart'
      | .err er => .err er
      | .fuelOut => .fuelOut

/-- The `for span in range(2, nwords)` loop. -/
def binSpans (fuel : Nat) (rev : OMap RKey (OMap String ℚ)) (n : Nat) :
    List Nat → Chart → POut Chart
  | [], chart => .ok chart
  | span :: rest, chart =>
      match binBegins fuel rev span (List.range' 0 (n + 1 - span)) chart with
      | .ok chart' => binSpans fuel rev n rest chart'
      | .err er => .err er
      | .fuelOut => .fuelOut

/-- `cky_parser(grammar, tokens)` (`parsing.py` lines 234-272),
parametrised by the unary-closure fuel and by the enumeration order of
the `pos_guesses` dict.  (The source name ends in a suffix this
development avoids, hence `cky_parse`.) -/
def cky_parse (fuel : Nat) (ordT : List ((String → Bool) × List String))
    (g : Grammar) (tokens : List String) : POut Chart :=
  match seedAll fuel ordT g 0 tokens [] with
  | .ok chart =>
      binSpans fuel g.revrules tokens.length
        (List.range' 2 (tokens.length - 1)) chart
  | .err er => .err er
  | .fuelOut => .fuelOut

/-! ## Viterbi extraction (`parsing.py` lines 275-295) -/

/-- The nested-list value built by `viterbi`: a bare string (the
fallback `return root` and the appended terminal string) or
`[label, child...]`. -/
inductive VTree where
  | leaf (s : String)
  | node (label : String) (kids : List VTree)
deriving Repr

/-- Python 2 `>` on stored probabilities (for `max`): a tuple compares
above a `Decimal`. -/
def rvalGT (a b : RVal) : Bool := rvalLT b a

/-- `max(items, key=lambda item: item[1].prob)`: first maximal item. -/
def maxItem : List (String × chartItem) → Option (String × chartItem)
  | [] => none
  | x :: xs =>
      match maxItem xs with
      | none => some x
      | some m => if rvalGT m.2.prob x.2.prob then some m else some x

/-- `viterbi(chart, root, begin, end)`.  Faithful quirks: the presence
test consults `root`, but the extracted item is the maximum-probability
item of the whole cell, whatever its label; a one-child item whose
child equals `root` appends the bare string; otherwise it recurses on
the same span; a two-child item recurses on `(begin, split)` and
`(split, end)` with the stored split, which nothing forces to lie
inside the span, so the recursion is fuelled (`none` = fuel exhausted;
`viterbi`'s own probing of absent spans only inserts empty cells and
cannot change its result, so the chart is read-only here). -/
def viterbi (fuel : Nat) (chart : Chart) (root : String) (b e : Nat) :
    Option VTree :=
  match fuel with
  | 0 => none
  | fuel + 1 =>
      let cell := (olookup chart (b, e)).getD []
      match olookup cell root with
      | none => some (.leaf root)
      | some _ =>
          match maxItem cell with
          | none => none
          | some pr =>
              match pr.2.children with
              | [c] =>
                  if c = root then some (.node root [.leaf c])
                  else
                    match viterbi fuel chart c b e with
                    | none => none
                    | some sub => some (.node root [sub])
              | c1 :: c2 :: _ =>
                  match viterbi fuel chart c1 b pr.2.split,
                        viterbi fuel chart c2 pr.2.split e with
                  | some s1, some s2 => some (.node root [s1, s2])
                  | _, _ => none
              | [] => none

/-! ## Concrete corpora used by the claim theorems -/

/-- `(S (NP John) (VP sleeps))`. -/
def johnTree : PTree := .node "S" [.term "NP" "John", .term "VP" "sleeps"]

/-- The minimal corpus of the specification's test property: its single
tree realises exactly `S -> (NP, VP)`, `NP -> ("John",)`,
`VP -> ("sleeps",)`, each with probability 1. -/
def minCorpus : List PTree := [johnTree]

/-- The counting-phase state produced by `minCorpus` (checked by
`minSt_correct`). -/
def minSt : CountSt :=
  { term_syms := ["sleeps", "John"]
    nonterm_syms := ["S", "VP", "NP"]
    rules := [("S", [(RKey.TOTAL, 1), (RKey.UNKNOWN, 1), (RKey.seq ["NP", "VP"], 1)]),
              ("VP", [(RKey.TOTAL, 1), (RKey.UNKNOWN, 1), (RKey.seq ["sleeps"], 1)]),
              ("NP", [(RKey.TOTAL, 1), (RKey.UNKNOWN, 1), (RKey.seq ["John"], 1)])] }

theorem minSt_correct : countPhase minCorpus = .ok minSt := by decide

/-! ## The filter loop always raises on an all-lexical part of speech -/

/-- Once the dict iterator's size check has been tripped, its very next
advance raises, whatever remains to be visited. -/
theorem posInner_sizeChanged (ord : List RKey) (tbl : OMap RKey RVal) :
    (posInner ord tbl true).2.2 = some .dictChangedSize := by
  cases ord <;> simp [posInner]

/-- If the enumeration contains `TOTAL` and no multi-symbol child
sequence (so the `break` branch never fires before the deletion), the
inner loop always ends in `RuntimeError: dictionary changed size during
iteration` — `TOTAL` is eventually visited and deleted, and the next
advance of the iterator raises, even if `TOTAL` was the last key. -/
theorem posInner_crashes : ∀ (ord : List RKey) (tbl : OMap RKey RVal),
    RKey.TOTAL ∈ ord → (∀ cs, RKey.seq cs ∈ ord → cs.length ≤ 1) →
    (posInner ord tbl false).2.2 = some .dictChangedSize := by
  intro ord
  induction ord with
  | nil => intro tbl hT _; simp at hT
  | cons k rest ih =>
    intro tbl hT hseq
    match k with
    | RKey.TOTAL =>
      simp [posInner, posInner_sizeChanged]
    | RKey.UNKNOWN =>
      have hT' : RKey.TOTAL ∈ rest := by
        rcases List.mem_cons.mp hT with h | h
        · exact absurd h (by simp)
        · exact h
      simp only [posInner]
      exact ih _ hT' (fun cs h => hseq cs (List.mem_cons_of_mem _ h))
    | RKey.seq cs =>
      have hlen : cs.length ≤ 1 := hseq cs (List.mem_cons_self _ _)
      have hnot : ¬ cs.length > 1 := by omega
      have hT' : RKey.TOTAL ∈ rest := by
        rcases List.mem_cons.mp hT with h | h
        · exact absurd h (by simp)
        · exact h
      simp only [posInner, if_neg hnot]
      exact ih _ hT' (fun cs' h => hseq cs' (List.mem_cons_of_mem _ h))

/-- If the first part of speech the outer loop visits has a rule table
whose keys contain `TOTAL` and no multi-symbol sequence, the whole
filter loop raises. -/
theorem filterLoop_head_crash (inF : String → List RKey → List RKey)
    (p : String) (rest : List String) (rules : OMap String (OMap RKey RVal))
    (posL : List String) (tbl : OMap RKey RVal)
    (hlook : olookup rules p = some tbl)
    (hperm : (inF p (okeys tbl)).Perm (okeys tbl))
    (hT : RKey.TOTAL ∈ okeys tbl)
    (hseq : ∀ cs, RKey.seq cs ∈ okeys tbl → cs.length ≤ 1) :
    (filterLoop inF (p :: rest) rules posL).2.2 = some .dictChangedSize := by
  have hT' : RKey.TOTAL ∈ inF p (okeys tbl) := hperm.mem_iff.mpr hT
  have hseq' : ∀ cs, RKey.seq cs ∈ inF p (okeys tbl) → cs.length ≤ 1 :=
    fun cs h => hseq cs (hperm.mem_iff.mp h)
  have hcrash := posInner_crashes (inF p (okeys tbl)) tbl hT' hseq'
  rcases hres : posInner (inF p (okeys tbl)) tbl false with ⟨t', remFlag, err⟩
  rw [hres] at hcrash
  simp only at hcrash
  simp only [filterLoop, hlook, Option.getD_some, hres, hcrash]

/-- **C1.** The specification's minimal-grammar property expects
`deduce_grammar` on the corpus `[(S (NP John) (VP sleeps))]` followed by
`cky_parser` on `["John", "sleeps"]` and `viterbi` to produce the tree
`(S (NP John) (VP sleeps))` with probability 1.  The code never reaches
parsing: `deduce_grammar` itself raises `RuntimeError: dictionary
changed size during iteration`, because its part-of-speech filter loop
executes `del rules[pos][TOTAL]` while iterating `rules[pos]`
(`parsing.py` lines 148-150), and both NP and VP have purely lexical
tables, so the `break` branch can never pre-empt the deletion.  This
theorem evaluates the model at the failing input (and
`c7_deduce_grammar_raises_runtime_error` shows the crash under every
admissible dict enumeration order, so this is not an artefact of the
model's canonical order). -/
theorem c1_deduce_grammar_crashes_on_minimal_corpus :
    deduce_grammar minCorpus = .error .dictChangedSize := by decide

/-- **C7.** (code_bug) On the well-formed minimal corpus — whatever
enumeration order CPython's hash tables give the part-of-speech set and
the rule-table keys (any permutation) — `deduce_grammar` raises
`RuntimeError: dictionary changed size during iteration` instead of
returning a grammar.  The claim's `GrammarInconsistencyError` does not
exist anywhere in the code, and induction is not side-effect-free
either: it mutates `rules` in place before raising. -/
theorem c7_deduce_grammar_raises_runtime_error
    (outF : List String → List String) (inF : String → List RKey → List RKey)
    (hout : ∀ l : List String, (outF l).Perm l)
    (hin : ∀ (p : String) (ks : List RKey), (inF p ks).Perm ks) :
    deduce_grammarO outF inF minCorpus = .error .dictChangedSize := by
  have hperm := hout (posStage minSt)
  have hposL : posStage minSt = ["VP", "NP"] := by decide
  obtain ⟨p, rest, hcons⟩ : ∃ p rest, outF (posStage minSt) = p :: rest := by
    rcases hc : outF (posStage minSt) with _ | ⟨p, rest⟩
    · exfalso
      have hlen := hperm.length_eq
      rw [hc, hposL] at hlen
      simp at hlen
    · exact ⟨p, rest, rfl⟩
  have hpmem : p ∈ (["VP", "NP"] : List String) := by
    rw [← hposL]
    exact hperm.mem_iff.mp (hcons ▸ List.mem_cons_self p rest)
  have hcrash : (filterStage outF inF minSt).2.2 = some .dictChangedSize := by
    unfold filterStage
    rw [hcons]
    rcases List.mem_cons.mp hpmem with hp | hp
    · subst hp
      refine filterLoop_head_crash inF _ rest _ _
        [(RKey.TOTAL, RVal.num 1), (RKey.UNKNOWN, RVal.num 1),
         (RKey.seq ["sleeps"], RVal.num 1)] (by decide) (hin _ _) (by decide) ?_
      intro cs h
      simp only [okeys, List.map_cons, List.map_nil, List.mem_cons] at h
      rcases h with h | h | h | h
      · cases h
      · cases h
      · cases h; decide
      · simp at h
    · have hp' : p = "NP" := by simpa using hp
      subst hp'
      refine filterLoop_head_crash inF _ rest _ _
        [(RKey.TOTAL, RVal.num 1), (RKey.UNKNOWN, RVal.num 1),
         (RKey.seq ["John"], RVal.num 1)] (by decide) (hin _ _) (by decide) ?_
      intro cs h
      simp only [okeys, List.map_cons, List.map_nil, List.mem_cons] at h
      rcases h with h | h | h | h
      · cases h
      · cases h
      · cases h; decide
      · simp at h
  have hcount := minSt_correct
  simp only [minCorpus] at hcount
  simp only [deduce_grammarO, minCorpus, hcount]
  rw [hcrash]

/-- Witness for `c7_deduce_grammar_raises_runtime_error`: the identity
enumerations are permutations, and the conclusion holds at them. -/
theorem c7_witness :
    deduce_grammarO id (fun _ ks => ks) minCorpus = .error .dictChangedSize :=
  c7_deduce_grammar_raises_runtime_error id (fun _ ks => ks)
    (fun l => List.Perm.refl l) (fun _ ks => List.Perm.refl ks)

/-- `(S (NP Mary) (VP sleeps))`. -/
def maryTree : PTree := .node "S" [.term "NP" "Mary", .term "VP" "sleeps"]

/-- A corpus in which every recorded NP rule has count 2 out of 4, so
the least recorded NP probability is `1/2` while the normalised
`UNKNOWN` weight is `1/4`. -/
def quadCorpus : List PTree := [johnTree, johnTree, maryTree, maryTree]

/-- The counting-phase state of `quadCorpus` (checked by
`quadSt_correct`; the worklist pops from the end, so `maryTree` is
traversed first). -/
def quadSt : CountSt :=
  { term_syms := ["sleeps", "Mary", "sleeps", "Mary",
                  "sleeps", "John", "sleeps", "John"]
    nonterm_syms := ["S", "VP", "NP", "S", "VP", "NP",
                     "S", "VP", "NP", "S", "VP", "NP"]
    rules := [("S", [(RKey.TOTAL, 4), (RKey.UNKNOWN, 1), (RKey.seq ["NP", "VP"], 4)]),
              ("VP", [(RKey.TOTAL, 4), (RKey.UNKNOWN, 1), (RKey.seq ["sleeps"], 4)]),
              ("NP", [(RKey.TOTAL, 4), (RKey.UNKNOWN, 1),
                      (RKey.seq ["Mary"], 2), (RKey.seq ["John"], 2)])] }

theorem quadSt_correct : countPhase quadCorpus = .ok quadSt := by decide

/-- An admissible enumeration of the copied part-of-speech set that
happens to visit `"NP"` first (a permutation whenever `"NP"` is a
member). -/
def outNPFirst (l : List String) : List String := "NP" :: l.erase "NP"

/-- An admissible enumeration of a rule table's keys that happens to
visit `UNKNOWN` first (a permutation whenever `UNKNOWN` is a key). -/
def inUnkFirst (_ : String) (ks : List RKey) : List RKey :=
  RKey.UNKNOWN :: ks.erase RKey.UNKNOWN

/-- Minimum of a list of rationals (an explicit fold, so that it
evaluates by reduction). -/
def minProbL : List ℚ → Option ℚ
  | [] => none
  | q :: qs =>
      match minProbL qs with
      | none => some q
      | some m => some (if m < q then m else q)

/-- Modelled from the spec's words, for comparison only: the minimum
probability over a label's recorded child-sequence rules — what the
specification says `unknownFallback[pos]` is computed as. -/
def specMinRuleProb (tbl : OMap RKey ℚ) : Option ℚ :=
  minProbL ((tbl.filter fun p => p.1.isSeq).map Prod.snd)

/-- **C3.** (code_bug) The claim says `unknownFallback[pos]` equals the
minimum probability over `pos`'s own recorded rules, a single value in
`[0, 1]`.  The code's line
`rules[pos][UNKNOWN] = min(rules[pos].items(), key=lambda item: item[1])`
stores the whole `(key, value)` **item**, not a probability, and the
minimum ranges over the current dict — which still contains `UNKNOWN`'s
own normalised weight `1/TOTAL` (and `TOTAL` until deleted) — so even
the numeric component is `1/TOTAL`, not the least recorded-rule
probability, whenever every rule has count ≥ 2.  On `quadCorpus`, under
the admissible enumeration that visits `UNKNOWN` before `TOTAL`, the
entry becomes the pair `(UNKNOWN, 1/4)` while the least recorded NP
probability is `1/2`; the loop then still ends in
`RuntimeError: dictionary changed size during iteration`, so no grammar
is returned at all (the spec's formula describes the evident intent,
which the parser's own use `prob = rules[tag][UNKNOWN]` also assumes). -/
theorem c3_unknown_fallback_stores_item_pair :
    countPhase quadCorpus = .ok quadSt
    ∧ (outNPFirst (posStage quadSt)).Perm (posStage quadSt)
    ∧ (inUnkFirst "NP"
        [RKey.TOTAL, RKey.UNKNOWN, RKey.seq ["Mary"], RKey.seq ["John"]]).Perm
        [RKey.TOTAL, RKey.UNKNOWN, RKey.seq ["Mary"], RKey.seq ["John"]]
    ∧ ((olookup (filterStage outNPFirst inUnkFirst quadSt).1 "NP").bind
        (fun tbl => olookup tbl RKey.UNKNOWN))
        = some (RVal.pair RKey.UNKNOWN (1/4))
    ∧ (filterStage outNPFirst inUnkFirst quadSt).2.2 = some PyErr.dictChangedSize
    ∧ ((olookup (normStage quadSt) "NP").bind specMinRuleProb) = some (1/2) :=
  ⟨by decide, by decide, by decide, by decide, by decide, by decide⟩

/-! ## Claims about the chart parser and extractor -/

/-- A hand-built grammar value (`cky_parser` accepts any grammar dict,
e.g. an unpickled one): a single parent `A` with lexical rule
`A -> "a"`, and a start symbol `S` that no rule produces. -/
def gA : Grammar :=
  { terminals := ["a"], nonterminals := ["A"],
    rules := [("A", [(RKey.UNKNOWN, RVal.num (1/2)), (RKey.seq ["a"], RVal.num 1)])],
    start_symbol := "S",
    revrules := [(RKey.seq ["a"], [("A", 1)])],
    pos := ["A"] }

/-- The chart `cky_parser` produces from `gA` on `["a"]` (checked in
`c2_counterexample`). -/
def chartA : Chart := [((0, 1), [("A", ⟨RVal.num 1, 1, ["a"]⟩)])]

/-- **C2 counterexample.** The claim says that when the start symbol is
absent from the full-span cell, extraction fails with
`NoParseFoundError`.  No such exception exists anywhere in the code:
`viterbi` falls through to `return root` (`parsing.py` line 295) and
hands back the bare start-symbol string — a non-tree value — with no
exception raised.  Concretely: parsing `["a"]` under `gA` gives a chart
whose full-span cell has no `"S"`, and `viterbi` returns the bare
string `"S"`. -/
theorem c2_counterexample :
    cky_parse 4 pos_guesses gA ["a"] = .ok chartA
    ∧ olookup ((olookup chartA (0, 1)).getD []) "S" = none
    ∧ viterbi 10 chartA "S" 0 1 = some (VTree.leaf "S") :=
  ⟨by decide, by decide, rfl⟩

/-- **C2.** (corrected) For every chart, label and span, if the label is
absent from the cell the extractor returns the bare label itself (the
`return root` fall-through) — it neither raises a `NoParseFoundError`
(which does not exist) nor produces a tree node. -/
theorem c2_viterbi_returns_bare_label_when_start_absent
    (chart : Chart) (root : String) (b e fuel : Nat)
    (h : olookup ((olookup chart (b, e)).getD []) root = none) :
    viterbi (fuel + 1) chart root b e = some (VTree.leaf root) := by
  simp [viterbi, h]

/-- Witness for `c2_viterbi_returns_bare_label_when_start_absent` at the
concrete chart of `gA` on `["a"]` and the start symbol `"S"`. -/
theorem c2_witness : viterbi 10 chartA "S" 0 1 = some (VTree.leaf "S") :=
  c2_viterbi_returns_bare_label_when_start_absent chartA "S" 0 1 9 (by decide)

/-- `rules[tag][UNKNOWN]` as a single lookup: `none` means one of the
two dict accesses raises `KeyError`. -/
def lookupUNK (rules : OMap String (OMap RKey RVal)) (tag : String) :
    Option RVal :=
  (olookup rules tag).bind fun tbl => olookup tbl RKey.UNKNOWN

theorem seedUnknown_err (rules : OMap String (OMap RKey RVal))
    (tok : String) (e : Nat) :
    ∀ (tags : List String) (cell : Cell),
      (∃ tag ∈ tags, lookupUNK rules tag = none) →
      seedUnknown rules tok e tags cell = .error .keyError := by
  intro tags
  induction tags with
  | nil => intro cell h; simp at h
  | cons tag rest ih =>
    intro cell h
    rcases hr : olookup rules tag with _ | tbl
    · simp [seedUnknown, hr]
    · rcases hu : olookup tbl RKey.UNKNOWN with _ | v
      · simp [seedUnknown, hr, hu]
      · have hgood : lookupUNK rules tag = some v := by
          simp [lookupUNK, hr, hu]
        obtain ⟨t, ht, hbad⟩ := h
        have htr : t ∈ rest := by
          rcases List.mem_cons.mp ht with h' | h'
          · subst h'; rw [hgood] at hbad; cases hbad
          · exact h'
        simp only [seedUnknown, hr, hu]
        exact ih _ ⟨t, htr, hbad⟩

theorem seedUnknown_ok (rules : OMap String (OMap RKey RVal))
    (tok : String) (e : Nat) :
    ∀ (tags : List String) (cell : Cell),
      (∀ tag ∈ tags, (lookupUNK rules tag).isSome) →
      ∃ cell', seedUnknown rules tok e tags cell = .ok cell'
        ∧ (∀ tag v, tag ∈ tags → lookupUNK rules tag = some v →
            olookup cell' tag = some ⟨v, e, [tok]⟩)
        ∧ (∀ lab, lab ∉ tags → olookup cell' lab = olookup cell lab) := by
  intro tags
  induction tags with
  | nil =>
    intro cell _
    exact ⟨cell, rfl, by intro tag v h; simp at h, by intro lab _; rfl⟩
  | cons tag rest ih =>
    intro cell hgood
    have htag := hgood tag (List.mem_cons_self _ _)
    rcases hl : lookupUNK rules tag with _ | v
    · rw [hl] at htag; cases htag
    · rcases hr : olookup rules tag with _ | tbl
      · simp [lookupUNK, hr] at hl
      · have hu : olookup tbl RKey.UNKNOWN = some v := by
          simpa [lookupUNK, hr] using hl
        obtain ⟨cell', hrun, hin, hout⟩ :=
          ih (oset cell tag ⟨v, e, [tok]⟩)
            (fun t ht => hgood t (List.mem_cons_of_mem _ ht))
        refine ⟨cell', by simp only [seedUnknown, hr, hu]; exact hrun, ?_, ?_⟩
        · intro t v' ht hv'
          rcases List.mem_cons.mp ht with h' | h'
          · subst h'
            by_cases hmem : t ∈ rest
            · exact hin t v' hmem hv'
            · have hv : v' = v := by
                rw [hl] at hv'
                exact (Option.some.inj hv').symm
              subst hv
              rw [hout t hmem]
              exact olookup_oset_self cell t _
          · exact hin t v' h' hv'
        · intro lab hlab
          have h1 : lab ∉ rest := fun h => hlab (List.mem_cons_of_mem _ h)
          have h2 : lab ≠ tag := fun h => hlab (h ▸ List.mem_cons_self _ _)
          rw [hout lab h1, olookup_oset_ne cell tag lab _ (Ne.symm h2)]

/-- **C5.** (corrected) The claim says candidate tags for an unseen
token are filtered against the grammar's part-of-speech set, unknown
ones being silently skipped.  The code never consults that set: every
candidate is looked up directly as `rules[tag][UNKNOWN]`
(`parsing.py` lines 249-253), so a candidate absent from the rules
table (or a table without `UNKNOWN`) raises `KeyError`, and present
candidates seed the cell unconditionally with that entry's value. -/
theorem c5_unseen_token_candidates_not_filtered
    (g : Grammar) (ord : List ((String → Bool) × List String))
    (fuel i : Nat) (tok : String) (chart : Chart) (tags : List String)
    (hseen : olookup g.revrules (RKey.seq [tok]) = none)
    (htags : rulebased_postagO ord tok = .ok tags) :
    ((∃ tag ∈ tags, lookupUNK g.rules tag = none) →
        seedToken fuel ord g i tok chart = .err .keyError)
    ∧ ((∀ tag ∈ tags, (lookupUNK g.rules tag).isSome) →
        ∀ cell : Cell, ∃ cell',
          seedUnknown g.rules tok (i + 1) tags cell = .ok cell'
          ∧ (∀ tag v, tag ∈ tags → lookupUNK g.rules tag = some v →
              olookup cell' tag = some ⟨v, i + 1, [tok]⟩)
          ∧ (∀ lab, lab ∉ tags → olookup cell' lab = olookup cell lab)) := by
  constructor
  · intro hbad
    have herr := seedUnknown_err g.rules tok (i + 1) tags
      (chartCell chart (i, i + 1)).1 hbad
    simp only [seedToken, hseen, htags, herr]
  · intro hgood cell
    exact seedUnknown_ok g.rules tok (i + 1) tags cell hgood

/-- Witness for `c5_unseen_token_candidates_not_filtered`: under `gA`
(whose rules table has no `"NNP"`), the unseen token `"Xyz"` guesses
`["NNP", "NNPS"]` and the seeding body raises `KeyError`. -/
theorem c5_witness : seedToken 4 pos_guesses gA 0 "Xyz" [] = .err .keyError :=
  (c5_unseen_token_candidates_not_filtered gA pos_guesses 4 0 "Xyz" []
    ["NNP", "NNPS"] (by decide) (by decide)).1
    ⟨"NNP", by decide, by decide⟩

/-- **C5 counterexample.** Under `gA` the claim would have the unknown
candidates `NNP`, `NNPS` (both outside `gA`'s part-of-speech set and
rules) silently skipped; instead the full parser raises `KeyError`. -/
theorem c5_counterexample :
    rulebased_postag "Xyz" = .ok ["NNP", "NNPS"]
    ∧ ("NNP" ∈ okeys gA.rules) = False
    ∧ cky_parse 4 pos_guesses gA ["Xyz"] = .err .keyError := by
  refine ⟨by decide, by simp; decide, by decide⟩

/-- An adversarial grammar value: `cky_parser` accepts any grammar
dict, and a reverse-rule "probability" of `-1` makes the seeding
comparison `chart[i, i+1][root].prob < prob` false against the freshly
inserted defaultdict sentinel, which therefore survives in the returned
chart. -/
def gNeg : Grammar :=
  { terminals := ["a"], nonterminals := ["A"],
    rules := [("A", [(RKey.UNKNOWN, RVal.num (1/2)), (RKey.seq ["a"], RVal.num 1)])],
    start_symbol := "A",
    revrules := [(RKey.seq ["a"], [("A", -1)])],
    pos := ["A"] }

/-- The chart `cky_parser` returns from `gNeg` on `["a"]`: the sentinel
item is the only entry of the full-span cell. -/
def chartNeg : Chart := [((0, 1), [("A", sentinelItem)])]

/-- **C10.** (confirmed) Probing a label absent from a chart cell
inserts the defaultdict sentinel `chartItem(-1, 0, [':('])`
(`parsing.py` lines 235-236), and for some grammar and token sequence
such sentinel entries survive into the chart `cky_parser` returns —
labels with no derivation over the span but probability `-1` — and
`viterbi`'s presence test `root in chart[begin, end]` counts them as
present, extracting the sentinel's `":("` child. -/
theorem c10_sentinel_survives_and_counts_as_present :
    cky_parse 4 pos_guesses gNeg ["a"] = .ok chartNeg
    ∧ olookup ((olookup chartNeg (0, 1)).getD []) "A"
        = some ⟨RVal.num (-1), 0, [":("]⟩
    ∧ ((olookup ((olookup chartNeg (0, 1)).getD []) "A").isSome = true)
    ∧ viterbi 10 chartNeg "A" 0 1 = some (VTree.node "A" [VTree.leaf ":("]) :=
  ⟨by decide, by decide, by decide, rfl⟩

/-- An enumeration of the `pos_guesses` dict that visits the
always-matching default entry first — as admissible as the written
order, since CPython 2 iterates this dict of function objects in
id-dependent hash order. -/
def pgDefaultFirst : List ((String → Bool) × List String) :=
  (fun _ => true, ["NNP", "NNPS"]) :: pos_guesses.take 15

/-- **C6 counterexample.** The claim says `rulebased_postag` evaluates
the predicates in the fixed written priority order.  `pos_guesses` is a
dict keyed by function objects, so the iteration order is arbitrary:
under the admissible enumeration `pgDefaultFirst` (a permutation of the
table), the token `"portable"` gets `["NNP", "NNPS"]` from the default
entry, whereas the written order gives `["JJ"]` from the `-able`
suffix. -/
theorem c6_counterexample :
    pgDefaultFirst.Perm pos_guesses
    ∧ rulebased_postagO pgDefaultFirst "portable" = .ok ["NNP", "NNPS"]
    ∧ rulebased_postag "portable" = .ok ["JJ"] := by
  refine ⟨?_, rfl, by decide⟩
  have hsplit : pos_guesses = pos_guesses.take 15
      ++ [((fun _ => true : String → Bool), ["NNP", "NNPS"])] := rfl
  rw [hsplit]
  exact (List.perm_append_singleton _ _).symm

theorem postag_first_match_ok :
    ∀ (ord : List ((String → Bool) × List String)) (tok : String),
      (∃ pr ∈ ord, pr.1 tok = true) → (∀ pr ∈ ord, pr.2 ≠ []) →
      ∃ ls, rulebased_postagO ord tok = .ok ls ∧ ls ≠ [] := by
  intro ord
  induction ord with
  | nil => intro tok h _; simp at h
  | cons pr rest ih =>
    intro tok hmatch hne
    obtain ⟨p, ls⟩ := pr
    by_cases hp : p tok = true
    · exact ⟨ls, by simp [rulebased_postagO, hp],
        hne (p, ls) (List.mem_cons_self _ _)⟩
    · have hmatch' : ∃ pr ∈ rest, pr.1 tok = true := by
        obtain ⟨q, hq, hqt⟩ := hmatch
        rcases List.mem_cons.mp hq with h' | h'
        · exfalso; apply hp; rw [← hqt, h']
        · exact ⟨q, h', hqt⟩
      obtain ⟨ls', hrun, hne'⟩ :=
        ih tok hmatch' (fun q hq => hne q (List.mem_cons_of_mem _ hq))
      refine ⟨ls', ?_, hne'⟩
      simp only [rulebased_postagO, hp]
      simpa using hrun

/-- Every candidate list in the `pos_guesses` table is non-empty. -/
theorem pos_guesses_snd_ne_nil : ∀ pr ∈ pos_guesses, pr.2 ≠ [] := by
  intro pr h
  simp only [pos_guesses, List.mem_cons] at h
  rcases h with h|h|h|h|h|h|h|h|h|h|h|h|h|h|h|h|h
  all_goals first
  | (rw [h]; simp)
  | simp at h

/-- **C6.** (corrected) Under every admissible enumeration of the
`pos_guesses` dict (any permutation of the written table — the order a
CPython 2 run fixes once and keeps), `rulebased_postag` returns the
first matching predicate's candidate list, which is always non-empty
(the default entry matches everything, so the `RuntimeError` fall-through
is unreachable); within one run the result is the enumeration's
first-match value, hence identical across repeated calls.  What fails
in the original claim is only that the enumeration need not be the
written priority order (`c6_counterexample`). -/
theorem c6_tagger_total_and_nonempty_under_any_order
    (ord : List ((String → Bool) × List String))
    (hperm : ord.Perm pos_guesses) (tok : String) :
    ∃ ls, rulebased_postagO ord tok = .ok ls ∧ ls ≠ [] := by
  have hdef : ((fun _ => true : String → Bool), ["NNP", "NNPS"]) ∈ pos_guesses := by
    simp [pos_guesses]
  refine postag_first_match_ok ord tok
    ⟨_, hperm.mem_iff.mpr hdef, rfl⟩
    (fun pr h => pos_guesses_snd_ne_nil pr (hperm.mem_iff.mp h))

/-- Witness for `c6_tagger_total_and_nonempty_under_any_order` at the
written table order and the token `"Xyz"`. -/
theorem c6_witness :
    ∃ ls, rulebased_postagO pos_guesses "Xyz" = .ok ls ∧ ls ≠ [] :=
  c6_tagger_total_and_nonempty_under_any_order pos_guesses
    (List.Perm.refl _) "Xyz"

/-! ## C8: per-parent probabilities sum to 1 after normalisation -/

/-- The sum of a table's child-sequence (non-bookkeeping) values. -/
def seqSum (tbl : OMap RKey ℚ) : ℚ :=
  ((tbl.filter fun p => p.1.isSeq).map Prod.snd).sum

/-- Invariant of one parent's count table throughout the worklist loop:
keys are unrepeated, `TOTAL` records exactly the sum of the
child-sequence counts, and that sum is at least 1. -/
def tblInv (tbl : OMap RKey ℚ) : Prop :=
  (okeys tbl).Nodup ∧ olookup tbl RKey.TOTAL = some (seqSum tbl)
    ∧ 1 ≤ seqSum tbl

/-- Invariant of the whole `rules` table. -/
def rulesInv (rules : OMap String (OMap RKey ℚ)) : Prop :=
  (okeys rules).Nodup ∧ ∀ lab tbl, olookup rules lab = some tbl → tblInv tbl

theorem seqSum_nil : seqSum [] = 0 := rfl

theorem seqSum_cons (k : RKey) (v : ℚ) (t : OMap RKey ℚ) :
    seqSum ((k, v) :: t) = if k.isSeq then v + seqSum t else seqSum t := by
  by_cases h : k.isSeq <;> simp [seqSum, List.filter_cons, h]

theorem seqSum_oset_notseq (tbl : OMap RKey ℚ) (k : RKey) (v : ℚ)
    (hk : k.isSeq = false) : seqSum (oset tbl k v) = seqSum tbl := by
  induction tbl with
  | nil => simp [oset, seqSum_cons, hk]
  | cons hd t ih =>
    obtain ⟨k', v'⟩ := hd
    by_cases hkk : k' = k
    · subst hkk; simp [oset, seqSum_cons, hk]
    · simp only [oset, if_neg hkk, seqSum_cons, ih]

theorem seqSum_oset_seq_absent (tbl : OMap RKey ℚ) (k : RKey) (v : ℚ)
    (hk : k.isSeq = true) (h : k ∉ okeys tbl) :
    seqSum (oset tbl k v) = seqSum tbl + v := by
  induction tbl with
  | nil => simp [oset, seqSum_cons, hk, seqSum_nil]
  | cons hd t ih =>
    obtain ⟨k', v'⟩ := hd
    have hkk : k' ≠ k := by
      intro hkk; exact h (by simp [okeys, hkk])
    have ht : k ∉ okeys t := by
      intro ht'
      apply h
      simp only [okeys, List.map_cons, List.mem_cons]
      exact Or.inr (by simpa [okeys] using ht')
    simp only [oset, if_neg hkk, seqSum_cons, ih ht]
    by_cases hs : k'.isSeq <;> simp [hs] <;> ring

theorem seqSum_oset_seq_present (tbl : OMap RKey ℚ) (k : RKey) (v w : ℚ)
    (hk : k.isSeq = true) (hnd : (okeys tbl).Nodup)
    (hl : olookup tbl k = some w) :
    seqSum (oset tbl k v) = seqSum tbl - w + v := by
  induction tbl with
  | nil => cases hl
  | cons hd t ih =>
    obtain ⟨k', v'⟩ := hd
    by_cases hkk : k' = k
    · subst hkk
      have hv : v' = w := by
        simp only [olookup, if_pos rfl] at hl
        exact Option.some.inj hl
      subst hv
      simp only [oset, if_pos rfl, seqSum_cons, hk, if_true]
      ring
    · have hl' : olookup t k = some w := by
        simpa [olookup, hkk] using hl
      have hnd' : (okeys t).Nodup := by
        have := hnd
        simp only [okeys, List.map_cons, List.nodup_cons] at this
        exact this.2
      simp only [oset, if_neg hkk, seqSum_cons, ih hnd' hl']
      by_cases hs : k'.isSeq <;> simp [hs] <;> ring

/-- `bumpRule` with a child-sequence key preserves the invariant. -/
theorem bumpRule_inv (rules : OMap String (OMap RKey ℚ)) (lab : String)
    (cs : List String) (hinv : rulesInv rules) :
    rulesInv (bumpRule rules lab (.seq cs)) := by
  obtain ⟨hnd, hall⟩ := hinv
  set tbl0 : OMap RKey ℚ := (olookup rules lab).getD initTbl with he0
  have h0 : (okeys tbl0).Nodup ∧ olookup tbl0 RKey.TOTAL = some (seqSum tbl0)
      ∧ 0 ≤ seqSum tbl0 := by
    rw [he0]
    cases hl : olookup rules lab with
    | none => exact ⟨by decide, by decide, by decide⟩
    | some tbl =>
      obtain ⟨ha, hb, hc⟩ := hall lab tbl hl
      simp only [Option.getD_some]
      exact ⟨ha, hb, by linarith⟩
  obtain ⟨hnd0, htot0, hge0⟩ := h0
  set tbl1 : OMap RKey ℚ :=
    if omem tbl0 (RKey.seq cs) then tbl0 else oset tbl0 (RKey.seq cs) 0 with he1
  set tbl2 : OMap RKey ℚ :=
    oset tbl1 (RKey.seq cs) ((olookup tbl1 (RKey.seq cs)).getD 0 + 1) with he2
  set tbl3 : OMap RKey ℚ :=
    oset tbl2 RKey.TOTAL ((olookup tbl2 RKey.TOTAL).getD 0 + 1) with he3
  have hbr : bumpRule rules lab (.seq cs) = oset rules lab tbl3 := rfl
  have h2 : (okeys tbl2).Nodup ∧ seqSum tbl2 = seqSum tbl0 + 1
      ∧ olookup tbl2 RKey.TOTAL = some (seqSum tbl0) := by
    by_cases hm : omem tbl0 (RKey.seq cs)
    · have he1' : tbl1 = tbl0 := by rw [he1, if_pos hm]
      obtain ⟨w, hw⟩ := Option.isSome_iff_exists.mp hm
      refine ⟨?_, ?_, ?_⟩
      · rw [he2, he1']; exact nodup_okeys_oset _ _ _ hnd0
      · rw [he2, he1', hw]
        simp only [Option.getD_some]
        rw [seqSum_oset_seq_present tbl0 (RKey.seq cs) (w + 1) w rfl hnd0 hw]
        ring
      · rw [he2, he1', olookup_oset_ne _ _ _ _ (by simp)]
        exact htot0
    · have he1' : tbl1 = oset tbl0 (RKey.seq cs) 0 := by rw [he1, if_neg hm]
      have habs : RKey.seq cs ∉ okeys tbl0 := by
        intro h
        exact hm ((olookup_isSome_iff_mem tbl0 _).mpr h)
      have hnd1 : (okeys tbl1).Nodup := by
        rw [he1']; exact nodup_okeys_oset _ _ _ hnd0
      refine ⟨?_, ?_, ?_⟩
      · rw [he2]; exact nodup_okeys_oset _ _ _ hnd1
      · rw [he2, he1', olookup_oset_self]
        simp only [Option.getD_some]
        rw [seqSum_oset_seq_present (oset tbl0 (RKey.seq cs) 0) (RKey.seq cs)
              (0 + 1) 0 rfl (nodup_okeys_oset _ _ _ hnd0) (olookup_oset_self _ _ _),
            seqSum_oset_seq_absent tbl0 (RKey.seq cs) 0 rfl habs]
        ring
      · rw [he2, he1', olookup_oset_ne _ _ _ _ (by simp),
            olookup_oset_ne _ _ _ _ (by simp)]
        exact htot0
  obtain ⟨hnd2, hsum2, htot2⟩ := h2
  have hfin : tblInv tbl3 := by
    rw [he3, htot2]
    simp only [Option.getD_some]
    refine ⟨nodup_okeys_oset _ _ _ hnd2, ?_, ?_⟩
    · rw [olookup_oset_self, seqSum_oset_notseq _ RKey.TOTAL _ rfl, hsum2]
    · rw [seqSum_oset_notseq _ RKey.TOTAL _ rfl, hsum2]; linarith
  rw [hbr]
  constructor
  · exact nodup_okeys_oset _ _ _ hnd
  · intro lab' tbl' hl'
    by_cases hlab : lab' = lab
    · subst hlab
      rw [olookup_oset_self] at hl'
      rw [← Option.some.inj hl']
      exact hfin
    · rw [olookup_oset_ne _ _ _ _ (Ne.symm hlab)] at hl'
      exact hall lab' tbl' hl'

theorem drainF_rulesInv : ∀ (fuel : Nat) (q : List PTree) (st st' : CountSt),
    rulesInv st.rules → drainF fuel q st = some (.ok st') →
    rulesInv st'.rules := by
  intro fuel
  induction fuel with
  | zero =>
    intro q st st' hinv h
    cases q with
    | nil =>
      simp only [drainF] at h
      have h1 := Except.ok.inj (Option.some.inj h)
      rw [← h1]
      exact hinv
    | cons t rest => simp [drainF] at h
  | succ n ih =>
    intro q st st' hinv h
    cases q with
    | nil =>
      simp only [drainF] at h
      have h1 := Except.ok.inj (Option.some.inj h)
      rw [← h1]
      exact hinv
    | cons t rest =>
      cases t with
      | term lab tok =>
        simp only [drainF] at h
        exact ih _ _ _ (bumpRule_inv st.rules lab [tok] hinv) h
      | node lab cs =>
        cases cs with
        | nil => simp [drainF] at h
        | cons c cs' =>
          simp only [drainF] at h
          exact ih _ _ _
            (bumpRule_inv st.rules lab ((c :: cs').map PTree.rootLabel) hinv) h

theorem countPhase_rulesInv (corpus : List PTree) (st : CountSt)
    (h : countPhase corpus = .ok st) : rulesInv st.rules := by
  have hInit : rulesInv (⟨[], [], []⟩ : CountSt).rules :=
    ⟨List.nodup_nil, by intro lab tbl hl; cases hl⟩
  unfold countPhase drain at h
  cases hd : drainF (qSize corpus.reverse) corpus.reverse ⟨[], [], []⟩ with
  | none =>
    rw [hd] at h
    simp only [Option.getD_none] at h
    have h1 := Except.ok.inj h
    rw [← h1]
    exact hInit
  | some r =>
    rw [hd] at h
    simp only [Option.getD_some] at h
    rw [h] at hd
    exact drainF_rulesInv _ _ _ _ hInit hd

theorem olookup_rulesNorm (rules : OMap String (OMap RKey ℚ)) (lab : String) :
    olookup (rulesNorm rules) lab = (olookup rules lab).map normTbl := by
  induction rules with
  | nil => rfl
  | cons hd t ih =>
    obtain ⟨k, v⟩ := hd
    by_cases hk : k = lab <;> simp [rulesNorm, olookup, hk] <;>
      simpa [rulesNorm] using ih

theorem seqSum_map_div (tbl : OMap RKey ℚ) (T : ℚ) :
    seqSum (tbl.map fun p => if p.1 = RKey.TOTAL then p else (p.1, p.2 / T))
      = seqSum tbl / T := by
  induction tbl with
  | nil => simp [seqSum_nil]
  | cons hd t ih =>
    obtain ⟨k, v⟩ := hd
    by_cases hk : k = RKey.TOTAL
    · subst hk
      simpa [seqSum_cons, RKey.isSeq] using ih
    · simp only [List.map_cons, if_neg hk, seqSum_cons]
      by_cases hs : k.isSeq <;> simp [hs, ih, add_div]

theorem seqSum_normTbl (tbl : OMap RKey ℚ) :
    seqSum (normTbl tbl)
      = seqSum tbl / (olookup tbl RKey.TOTAL).getD 0 := by
  simp only [normTbl]
  exact seqSum_map_div tbl _

/-- **C8.** (confirmed) For every corpus on which the counting phase
succeeds, every parent of the normalised rules table (the state the
cited lines 128-141 produce; `deduce_grammar` later crashes before
returning it, see C7) has child-sequence probabilities summing to
exactly 1 — in particular within the claim's tolerance of `1e-9`.  The
bookkeeping `TOTAL` and `UNKNOWN` entries are excluded from the sum,
matching the claim. -/
theorem c8_per_parent_probabilities_sum_to_one
    (corpus : List PTree) (st : CountSt) (hok : countPhase corpus = .ok st)
    (lab : String) (tbl : OMap RKey ℚ)
    (hl : olookup (normStage st) lab = some tbl) :
    seqSum tbl = 1 := by
  have hinv := countPhase_rulesInv corpus st hok
  rw [show normStage st = rulesNorm st.rules from rfl,
    olookup_rulesNorm] at hl
  cases h0 : olookup st.rules lab with
  | none => rw [h0] at hl; cases hl
  | some tbl0 =>
    rw [h0] at hl
    obtain ⟨hnd0, htot0, hge0⟩ := hinv.2 lab tbl0 h0
    have htbl : tbl = normTbl tbl0 := by
      cases hl
      rfl
    rw [htbl, seqSum_normTbl, htot0]
    simp only [Option.getD_some]
    exact div_self (by linarith)

/-- Witness for `c8_per_parent_probabilities_sum_to_one`: the
normalised NP table of `quadCorpus` sums to 1 over its recorded rules
(`1/2 + 1/2`). -/
theorem c8_witness :
    seqSum [(RKey.TOTAL, (4 : ℚ)), (RKey.UNKNOWN, 1/4),
            (RKey.seq ["Mary"], 1/2), (RKey.seq ["John"], 1/2)] = 1 :=
  c8_per_parent_probabilities_sum_to_one quadCorpus quadSt quadSt_correct
    "NP" _ (by decide)

/-! ## C4: the reverse index against the rules table -/

/-- Two-level lookup `rev[ck][lab]`. -/
def olookup2 (rv : OMap RKey (OMap String ℚ)) (ck : RKey) (lab : String) :
    Option ℚ :=
  (olookup rv ck).bind fun m => olookup m lab

theorem invTblStep_lookup_ne (lab : String) (l2 : String) (h : l2 ≠ lab) :
    ∀ (tbl : OMap RKey ℚ) (rev : OMap RKey (OMap String ℚ)) (ck : RKey),
      olookup2 (invTblStep rev lab tbl) ck l2 = olookup2 rev ck l2 := by
  intro tbl
  induction tbl with
  | nil => intro rev ck; rfl
  | cons hd t ih =>
    intro rev ck
    obtain ⟨k, v⟩ := hd
    by_cases hk : k = RKey.TOTAL
    · simp only [invTblStep, List.foldl_cons, if_pos hk]
      exact ih rev ck
    · simp only [invTblStep, List.foldl_cons, if_neg hk]
      rw [show List.foldl _ (oset rev k (oset ((olookup rev k).getD []) lab v)) t
            = invTblStep (oset rev k (oset ((olookup rev k).getD []) lab v)) lab t
          from rfl]
      rw [ih]
      by_cases hck : k = ck
      · subst hck
        simp only [olookup2, olookup_oset_self, Option.bind]
        rw [olookup_oset_ne _ _ _ _ (Ne.symm h)]
        cases hrk : olookup rev k with
        | none => simp [hrk, olookup]
        | some m => simp [hrk]
      · simp only [olookup2]
        rw [olookup_oset_ne _ _ _ _ hck]

theorem invTblStep_lookup_miss (lab : String) :
    ∀ (tbl : OMap RKey ℚ) (rev : OMap RKey (OMap String ℚ)) (ck : RKey),
      (olookup tbl ck = none ∨ ck = RKey.TOTAL) →
      olookup2 (invTblStep rev lab tbl) ck lab = olookup2 rev ck lab := by
  intro tbl
  induction tbl with
  | nil => intro rev ck _; rfl
  | cons hd t ih =>
    intro rev ck hmiss
    obtain ⟨k, v⟩ := hd
    have hmiss' : olookup t ck = none ∨ ck = RKey.TOTAL := by
      rcases hmiss with h | h
      · left
        by_cases hkc : k = ck
        · simp [olookup, hkc] at h
        · simpa [olookup, hkc] using h
      · right; exact h
    by_cases hk : k = RKey.TOTAL
    · simp only [invTblStep, List.foldl_cons, if_pos hk]
      exact ih rev ck hmiss'
    · have hkc : k ≠ ck := by
        rcases hmiss with h | h
        · intro hkc; subst hkc; simp [olookup] at h
        · intro hkc; rw [← hkc] at h; exact hk h
      simp only [invTblStep, List.foldl_cons, if_neg hk]
      rw [show List.foldl _ (oset rev k (oset ((olookup rev k).getD []) lab v)) t
            = invTblStep (oset rev k (oset ((olookup rev k).getD []) lab v)) lab t
          from rfl]
      rw [ih _ _ hmiss']
      simp only [olookup2]
      rw [olookup_oset_ne _ _ _ _ hkc]

theorem invTblStep_lookup_hit (lab : String) :
    ∀ (tbl : OMap RKey ℚ) (rev : OMap RKey (OMap String ℚ)) (ck : RKey) (v : ℚ),
      (okeys tbl).Nodup → ck ≠ RKey.TOTAL → olookup tbl ck = some v →
      olookup2 (invTblStep rev lab tbl) ck lab = some v := by
  intro tbl
  induction tbl with
  | nil => intro rev ck v _ _ h; cases h
  | cons hd t ih =>
    intro rev ck v hnd hck hl
    obtain ⟨k, w⟩ := hd
    by_cases hkc : k = ck
    · subst hkc
      have hw : w = v := by
        simpa [olookup] using hl
      subst hw
      have hknot : olookup t k = none := by
        apply olookup_eq_none_of_not_mem
        simp only [okeys, List.map_cons, List.nodup_cons] at hnd
        exact hnd.1
      simp only [invTblStep, List.foldl_cons, if_neg hck]
      rw [show List.foldl _ (oset rev k (oset ((olookup rev k).getD []) lab w)) t
            = invTblStep (oset rev k (oset ((olookup rev k).getD []) lab w)) lab t
          from rfl]
      rw [invTblStep_lookup_miss lab t _ k (Or.inl hknot)]
      simp only [olookup2, olookup_oset_self, Option.bind]
    · have hl' : olookup t ck = some v := by
        simpa [olookup, hkc] using hl
      have hnd' : (okeys t).Nodup := by
        simp only [okeys, List.map_cons, List.nodup_cons] at hnd
        exact hnd.2
      by_cases hk : k = RKey.TOTAL
      · simp only [invTblStep, List.foldl_cons, if_pos hk]
        exact ih _ _ _ hnd' hck hl'
      · simp only [invTblStep, List.foldl_cons, if_neg hk]
        rw [show List.foldl _ (oset rev k (oset ((olookup rev k).getD []) lab w)) t
              = invTblStep (oset rev k (oset ((olookup rev k).getD []) lab w)) lab t
            from rfl]
        exact ih _ _ _ hnd' hck hl'

theorem okeys_cons {α β : Type} (a : α) (b : β) (t : OMap α β) :
    okeys ((a, b) :: t) = a :: okeys t := rfl

theorem foldRev_lookup_notmem (lab : String) :
    ∀ (L : OMap String (OMap RKey ℚ)) (rev : OMap RKey (OMap String ℚ))
      (ck : RKey), lab ∉ okeys L →
      olookup2 (L.foldl (fun rv p => invTblStep rv p.1 p.2) rev) ck lab
        = olookup2 rev ck lab := by
  intro L
  induction L with
  | nil => intro rev ck _; rfl
  | cons hd t ih =>
    intro rev ck hmem
    obtain ⟨lab', tbl'⟩ := hd
    rw [okeys_cons] at hmem
    have h1 : lab ≠ lab' := fun h => hmem (h ▸ List.mem_cons_self _ _)
    have h2 : lab ∉ okeys t := fun h => hmem (List.mem_cons_of_mem _ h)
    simp only [List.foldl_cons]
    rw [ih _ _ h2, invTblStep_lookup_ne lab' lab h1]

theorem foldRev_lookup_mem (lab : String) :
    ∀ (L : OMap String (OMap RKey ℚ)) (rev : OMap RKey (OMap String ℚ))
      (ck : RKey) (tbl : OMap RKey ℚ),
      (okeys L).Nodup → (okeys tbl).Nodup →
      olookup L lab = some tbl →
      (∀ ck' : RKey, olookup2 rev ck' lab = none) →
      olookup2 (L.foldl (fun rv p => invTblStep rv p.1 p.2) rev) ck lab
        = if ck = RKey.TOTAL then none else olookup tbl ck := by
  intro L
  induction L with
  | nil => intro rev ck tbl _ _ h _; cases h
  | cons hd t ih =>
    intro rev ck tbl hndL hndT hl hfresh
    obtain ⟨lab', tbl'⟩ := hd
    rw [okeys_cons] at hndL
    by_cases hlab : lab' = lab
    · subst hlab
      have htbl : tbl' = tbl := by simpa [olookup] using hl
      subst htbl
      have hnot : lab' ∉ okeys t := (List.nodup_cons.mp hndL).1
      simp only [List.foldl_cons]
      rw [foldRev_lookup_notmem lab' t _ ck hnot]
      by_cases hT : ck = RKey.TOTAL
      · rw [if_pos hT, invTblStep_lookup_miss lab' tbl' rev ck (Or.inr hT)]
        exact hfresh ck
      · rw [if_neg hT]
        cases hck : olookup tbl' ck with
        | none =>
          rw [invTblStep_lookup_miss lab' tbl' rev ck (Or.inl hck)]
          exact hfresh ck
        | some v =>
          exact invTblStep_lookup_hit lab' tbl' rev ck v hndT hT hck
    · have hl' : olookup t lab = some tbl := by
        simpa [olookup, hlab] using hl
      have hfresh' : ∀ ck' : RKey,
          olookup2 (invTblStep rev lab' tbl') ck' lab = none := by
        intro ck'
        rw [invTblStep_lookup_ne lab' lab (fun h => hlab h.symm)]
        exact hfresh ck'
      simp only [List.foldl_cons]
      exact ih _ ck tbl (List.nodup_cons.mp hndL).2 hndT hl' hfresh'

theorem okeys_normTbl (tbl : OMap RKey ℚ) : okeys (normTbl tbl) = okeys tbl := by
  simp only [normTbl, okeys, List.map_map]
  congr 1
  funext p
  by_cases h : p.1 = RKey.TOTAL <;> simp [h]

theorem olookup_mapVal {α β γ : Type} [DecidableEq α] (g : α → β → γ) :
    ∀ (m : OMap α β) (a : α),
      olookup (m.map fun p => (p.1, g p.1 p.2)) a = (olookup m a).map (g a) := by
  intro m
  induction m with
  | nil => intro a; rfl
  | cons hd t ih =>
    intro a
    obtain ⟨k, v⟩ := hd
    by_cases hk : k = a
    · subst hk; simp [olookup]
    · simp [olookup, hk, ih]

theorem olookup_normTbl (tbl : OMap RKey ℚ) (ck : RKey) :
    olookup (normTbl tbl) ck = (olookup tbl ck).map
      (fun v => if ck = RKey.TOTAL then v
                else v / (olookup tbl RKey.TOTAL).getD 0) := by
  have h := olookup_mapVal
    (fun (k : RKey) (v : ℚ) =>
      if k = RKey.TOTAL then v else v / (olookup tbl RKey.TOTAL).getD 0) tbl ck
  rw [show normTbl tbl = tbl.map fun p =>
        (p.1, if p.1 = RKey.TOTAL then p.2
              else p.2 / (olookup tbl RKey.TOTAL).getD 0) from ?_, h]
  simp only [normTbl]
  congr 1
  funext p
  obtain ⟨a, b⟩ := p
  by_cases hp : a = RKey.TOTAL <;> simp [hp]

theorem mem_okeys_oset {α β : Type} [DecidableEq α]
    (m : OMap α β) (a a' : α) (b : β) :
    a' ∈ okeys (oset m a b) ↔ a' ∈ okeys m ∨ a' = a := by
  by_cases hm : a ∈ okeys m
  · rw [okeys_oset_mem _ _ _ hm]
    constructor
    · exact Or.inl
    · rintro (h | h)
      · exact h
      · exact h ▸ hm
  · rw [okeys_oset_not_mem _ _ _ hm]
    simp [List.mem_append]

theorem total_not_mem_invTblStep (lab : String) :
    ∀ (tbl : OMap RKey ℚ) (rev : OMap RKey (OMap String ℚ)),
      RKey.TOTAL ∉ okeys rev →
      RKey.TOTAL ∉ okeys (invTblStep rev lab tbl) := by
  intro tbl
  induction tbl with
  | nil => intro rev h; exact h
  | cons hd t ih =>
    intro rev h
    obtain ⟨k, v⟩ := hd
    by_cases hk : k = RKey.TOTAL
    · simp only [invTblStep, List.foldl_cons, if_pos hk]
      exact ih rev h
    · simp only [invTblStep, List.foldl_cons, if_neg hk]
      apply ih
      intro hmem
      rcases (mem_okeys_oset _ _ _ _).mp hmem with h' | h'
      · exact h h'
      · exact hk h'.symm

theorem total_not_mem_buildRev :
    ∀ (L : OMap String (OMap RKey ℚ)) (rev : OMap RKey (OMap String ℚ)),
      RKey.TOTAL ∉ okeys rev →
      RKey.TOTAL ∉ okeys (L.foldl (fun rv p => invTblStep rv p.1 p.2) rev) := by
  intro L
  induction L with
  | nil => intro rev h; exact h
  | cons hd t ih =>
    intro rev h
    simp only [List.foldl_cons]
    exact ih _ (total_not_mem_invTblStep hd.1 hd.2 rev h)

/-- The `UNKNOWN` entry of every counted table stays at `ONE`
throughout the worklist loop (it is created by the table initialiser
and never reassigned before normalisation). -/
def unkInv (rules : OMap String (OMap RKey ℚ)) : Prop :=
  ∀ lab tbl, olookup rules lab = some tbl →
    olookup tbl RKey.UNKNOWN = some 1

theorem bumpRule_unkInv (rules : OMap String (OMap RKey ℚ)) (lab : String)
    (cs : List String) (h : unkInv rules) :
    unkInv (bumpRule rules lab (.seq cs)) := by
  set tbl0 : OMap RKey ℚ := (olookup rules lab).getD initTbl with he0
  have h0 : olookup tbl0 RKey.UNKNOWN = some 1 := by
    rw [he0]
    cases hl : olookup rules lab with
    | none => decide
    | some tbl => simpa using h lab tbl hl
  set tbl1 : OMap RKey ℚ :=
    if omem tbl0 (RKey.seq cs) then tbl0 else oset tbl0 (RKey.seq cs) 0 with he1
  set tbl2 : OMap RKey ℚ :=
    oset tbl1 (RKey.seq cs) ((olookup tbl1 (RKey.seq cs)).getD 0 + 1) with he2
  set tbl3 : OMap RKey ℚ :=
    oset tbl2 RKey.TOTAL ((olookup tbl2 RKey.TOTAL).getD 0 + 1) with he3
  have hbr : bumpRule rules lab (.seq cs) = oset rules lab tbl3 := rfl
  have h1 : olookup tbl1 RKey.UNKNOWN = some 1 := by
    rw [he1]
    by_cases hm : omem tbl0 (RKey.seq cs)
    · simpa [hm] using h0
    · rw [if_neg hm, olookup_oset_ne _ _ _ _ (by simp)]
      exact h0
  have h3 : olookup tbl3 RKey.UNKNOWN = some 1 := by
    rw [he3, he2, olookup_oset_ne _ _ _ _ (by simp),
      olookup_oset_ne _ _ _ _ (by simp)]
    exact h1
  rw [hbr]
  intro lab' tbl' hl'
  by_cases hlab : lab' = lab
  · subst hlab
    rw [olookup_oset_self] at hl'
    rw [← Option.some.inj hl']
    exact h3
  · rw [olookup_oset_ne _ _ _ _ (Ne.symm hlab)] at hl'
    exact h lab' tbl' hl'

theorem drainF_unkInv : ∀ (fuel : Nat) (q : List PTree) (st st' : CountSt),
    unkInv st.rules → drainF fuel q st = some (.ok st') →
    unkInv st'.rules := by
  intro fuel
  induction fuel with
  | zero =>
    intro q st st' hinv h
    cases q with
    | nil =>
      simp only [drainF] at h
      rw [← Except.ok.inj (Option.some.inj h)]
      exact hinv
    | cons t rest => simp [drainF] at h
  | succ n ih =>
    intro q st st' hinv h
    cases q with
    | nil =>
      simp only [drainF] at h
      rw [← Except.ok.inj (Option.some.inj h)]
      exact hinv
    | cons t rest =>
      cases t with
      | term lab tok =>
        simp only [drainF] at h
        exact ih _ _ _ (bumpRule_unkInv st.rules lab [tok] hinv) h
      | node lab cs =>
        cases cs with
        | nil => simp [drainF] at h
        | cons c cs' =>
          simp only [drainF] at h
          exact ih _ _ _
            (bumpRule_unkInv st.rules lab ((c :: cs').map PTree.rootLabel) hinv) h

theorem countPhase_unkInv (corpus : List PTree) (st : CountSt)
    (h : countPhase corpus = .ok st) : unkInv st.rules := by
  have hInit : unkInv (⟨[], [], []⟩ : CountSt).rules := by
    intro lab tbl hl; cases hl
  unfold countPhase drain at h
  cases hd : drainF (qSize corpus.reverse) corpus.reverse ⟨[], [], []⟩ with
  | none =>
    rw [hd] at h
    simp only [Option.getD_none] at h
    rw [← Except.ok.inj h]
    exact hInit
  | some r =>
    rw [hd] at h
    simp only [Option.getD_some] at h
    rw [h] at hd
    exact drainF_unkInv _ _ _ _ hInit hd

theorem okeys_rulesNorm (rules : OMap String (OMap RKey ℚ)) :
    okeys (rulesNorm rules) = okeys rules := by
  simp [rulesNorm, okeys, List.map_map]

/-- **C4.** (corrected) For every corpus on which the counting phase
succeeds: a pair `(childSequence -> parent)` is in the reverse index
built at lines 138-141 iff `parent -> childSequence` is a recorded
production of the normalised table, with the same probability, and
`TOTAL` never occurs as a key of the reverse index.  But the claim's
"no bookkeeping key occurs" is false: the guard is only
`child_labels is not TOTAL`, so `UNKNOWN` is inverted too and is a key
of the reverse index whenever any rule was recorded
(`c4_counterexample` exhibits it concretely). -/
theorem c4_reverse_index_transpose
    (corpus : List PTree) (st : CountSt)
    (hok : countPhase corpus = .ok st) :
    (∀ (cs : List String) (lab : String) (q : ℚ),
      olookup2 (revStage st) (RKey.seq cs) lab = some q
        ↔ ∃ tbl, olookup (normStage st) lab = some tbl
            ∧ olookup tbl (RKey.seq cs) = some q)
    ∧ RKey.TOTAL ∉ okeys (revStage st)
    ∧ (st.rules ≠ [] → RKey.UNKNOWN ∈ okeys (revStage st)) := by
  have hinv := countPhase_rulesInv corpus st hok
  have hunk := countPhase_unkInv corpus st hok
  have hndN : (okeys (normStage st)).Nodup := by
    rw [show normStage st = rulesNorm st.rules from rfl, okeys_rulesNorm]
    exact hinv.1
  have hrev : revStage st
      = (normStage st).foldl (fun rv p => invTblStep rv p.1 p.2) [] := rfl
  have htblnd : ∀ lab tbl, olookup (normStage st) lab = some tbl →
      (okeys tbl).Nodup := by
    intro lab tbl hl
    rw [show normStage st = rulesNorm st.rules from rfl,
      olookup_rulesNorm] at hl
    cases h0 : olookup st.rules lab with
    | none => rw [h0] at hl; cases hl
    | some tbl0 =>
      rw [h0] at hl
      have : tbl = normTbl tbl0 := by cases hl; rfl
      rw [this, okeys_normTbl]
      exact (hinv.2 lab tbl0 h0).1
  refine ⟨?_, ?_, ?_⟩
  · intro cs lab q
    by_cases hmem : lab ∈ okeys (normStage st)
    · obtain ⟨tbl, htbl⟩ := Option.isSome_iff_exists.mp
        ((olookup_isSome_iff_mem _ _).mpr hmem)
      rw [hrev, foldRev_lookup_mem lab (normStage st) [] (RKey.seq cs) tbl
          hndN (htblnd lab tbl htbl) htbl (fun _ => rfl)]
      rw [if_neg (by simp)]
      constructor
      · intro h; exact ⟨tbl, htbl, h⟩
      · rintro ⟨tbl', htbl', h⟩
        rw [htbl] at htbl'
        rw [← Option.some.inj htbl'] at h
        exact h
    · rw [hrev, foldRev_lookup_notmem lab (normStage st) [] (RKey.seq cs) hmem]
      constructor
      · intro h; cases h
      · rintro ⟨tbl', htbl', _⟩
        exact absurd ((olookup_isSome_iff_mem _ _).mp (by simp [htbl'])) hmem
  · rw [hrev]
    exact total_not_mem_buildRev (normStage st) [] (by simp [okeys])
  · intro hne
    obtain ⟨⟨lab0, tbl0⟩, rest, hr⟩ : ∃ hd rest, st.rules = hd :: rest := by
      cases hrules : st.rules with
      | nil => exact absurd hrules hne
      | cons hd rest => exact ⟨hd, rest, rfl⟩
    have hl0 : olookup st.rules lab0 = some tbl0 := by
      rw [hr]; simp [olookup]
    have hu0 : olookup tbl0 RKey.UNKNOWN = some 1 := hunk lab0 tbl0 hl0
    have hlN : olookup (normStage st) lab0 = some (normTbl tbl0) := by
      rw [show normStage st = rulesNorm st.rules from rfl,
        olookup_rulesNorm, hl0]
      rfl
    have huN : olookup (normTbl tbl0) RKey.UNKNOWN
        = some (1 / (olookup tbl0 RKey.TOTAL).getD 0) := by
      rw [olookup_normTbl, hu0]
      simp
    have hfold : olookup2 (revStage st) RKey.UNKNOWN lab0
        = some (1 / (olookup tbl0 RKey.TOTAL).getD 0) := by
      rw [hrev, foldRev_lookup_mem lab0 (normStage st) [] RKey.UNKNOWN
          (normTbl tbl0) hndN (htblnd lab0 _ hlN) hlN (fun _ => rfl),
        if_neg (by simp)]
      exact huN
    have : (olookup (revStage st) RKey.UNKNOWN).isSome := by
      simp only [olookup2] at hfold
      cases hx : olookup (revStage st) RKey.UNKNOWN with
      | none => rw [hx] at hfold; cases hfold
      | some m => simp
    exact (olookup_isSome_iff_mem _ _).mp this

/-- **C4 counterexample.** On the minimal corpus, `UNKNOWN` *is* a key
of the reverse index (with the normalised per-parent `1/TOTAL` weights
as its entries), refuting "no bookkeeping key (TOTAL, UNKNOWN) occurs
as a key of the reverse index". -/
theorem c4_counterexample :
    countPhase minCorpus = .ok minSt
    ∧ RKey.UNKNOWN ∈ okeys (revStage minSt)
    ∧ olookup (revStage minSt) RKey.UNKNOWN
        = some [("S", 1), ("VP", 1), ("NP", 1)] :=
  ⟨by decide, by decide, by decide⟩

/-- Witness for `c4_reverse_index_transpose` at `quadCorpus`: `TOTAL`
is not a reverse key, and the `NP -> (Mary)` rule of probability `1/2`
is reflected both ways. -/
theorem c4_witness :
    RKey.TOTAL ∉ okeys (revStage quadSt)
    ∧ (olookup2 (revStage quadSt) (RKey.seq ["Mary"]) "NP" = some (1/2)
        ↔ ∃ tbl, olookup (normStage quadSt) "NP" = some tbl
            ∧ olookup tbl (RKey.seq ["Mary"]) = some (1/2)) := by
  have h := c4_reverse_index_transpose quadCorpus quadSt quadSt_correct
  exact ⟨h.2.1, h.1 ["Mary"] "NP" (1/2)⟩

/-! ## C9: termination of the unary-closure loop

The claim quantifies over every grammar and cell state; it fails for
grammars with probabilities above 1 (`c9_counterexample`).  The amended
claim restricts to unary reverse probabilities in `[0, 1]` and
non-negative numeric stored scores (what induced grammars and seeded
cells provide); under those hypotheses each stored score is the weight
of a duplicate-free rule chain — strict improvement can never close a
cycle — so scores range over a finite set, each effective pass strictly
increases a finite measure, and the loop reaches its fixpoint. -/

/-- The numeric part of a stored probability. -/
def valOf (it : chartItem) : ℚ :=
  match it.prob with
  | .num q => q
  | .pair _ q => q

theorem oset_oset_same {α β : Type} [DecidableEq α]
    (m : OMap α β) (a : α) (b c : β) :
    oset (oset m a b) a c = oset m a c := by
  induction m with
  | nil => simp [oset]
  | cons hd t ih =>
    obtain ⟨k, v⟩ := hd
    by_cases hk : k = a
    · subst hk; simp [oset]
    · simp [oset, hk, ih]

theorem mem_of_olookup_some {α β : Type} [DecidableEq α] :
    ∀ (m : OMap α β) (a : α) (b : β), olookup m a = some b → (a, b) ∈ m := by
  intro m
  induction m with
  | nil => intro a b h; cases h
  | cons hd t ih =>
    intro a b h
    obtain ⟨k, v⟩ := hd
    by_cases hk : k = a
    · subst hk
      simp only [olookup, if_pos rfl] at h
      rw [← Option.some.inj h]
      exact List.mem_cons_self _ _
    · simp only [olookup, if_neg hk] at h
      exact List.mem_cons_of_mem _ (ih a b h)

theorem olookup_of_mem_nodup {α β : Type} [DecidableEq α] :
    ∀ (m : OMap α β) (a : α) (b : β), (okeys m).Nodup → (a, b) ∈ m →
      olookup m a = some b := by
  intro m
  induction m with
  | nil => intro a b _ h; cases h
  | cons hd t ih =>
    intro a b hnd h
    obtain ⟨k, v⟩ := hd
    rw [okeys_cons] at hnd
    rcases List.mem_cons.mp h with h' | h'
    · have h1 : k = a := (congrArg Prod.fst h').symm
      have h2 : v = b := (congrArg Prod.snd h').symm
      subst h1; subst h2
      simp [olookup]
    · have hka : k ≠ a := by
        intro hk
        subst hk
        exact (List.nodup_cons.mp hnd).1
          (by simpa [okeys] using List.mem_map_of_mem Prod.fst h')
      simp only [olookup, if_neg hka]
      exact ih a b (List.nodup_cons.mp hnd).2 h'

/-- All parent labels occurring in the reverse index's tables. -/
def revParents (rev : OMap RKey (OMap String ℚ)) : List String :=
  (rev.map fun p => okeys p.2).join

/-- The labels a unary-closure run over `cell0` can ever touch. -/
def uniLabels (rev : OMap RKey (OMap String ℚ)) (cell0 : Cell) :
    List String :=
  (okeys cell0 ++ revParents rev).dedup

/-- The probability of the unary rule `A -> (B,)` in the reverse index. -/
def edgeProb (rev : OMap RKey (OMap String ℚ)) (A B : String) : Option ℚ :=
  (olookup rev (RKey.seq [B])).bind fun m => olookup m A

/-- The product of rule probabilities along a chain of labels, times the
initial value of the chain's last label. -/
def pathVal (rev : OMap RKey (OMap String ℚ)) (cell0 : Cell) :
    List String → Option ℚ
  | [] => none
  | [X] => (olookup cell0 X).map valOf
  | A :: B :: rest =>
      match edgeProb rev A B, pathVal rev cell0 (B :: rest) with
      | some p, some v => some (p * v)
      | _, _ => none

/-- All values a closure run can store: weights of duplicate-free label
chains (a finite list by construction). -/
def pathVals (rev : OMap RKey (OMap String ℚ)) (cell0 : Cell) : List ℚ :=
  (((uniLabels rev cell0).sublists.map List.permutations).join).filterMap
    (pathVal rev cell0)

/-- Position of a value in the finite value set, as a measure. -/
def valRank (V : List ℚ) (q : ℚ) : Nat := (V.filter fun x => x < q).length

/-- The strictly-increasing measure of a cell: each entry contributes 1
plus its value's rank. -/
def cellRank (V : List ℚ) (cell : Cell) : Nat :=
  (cell.map fun p => 1 + valRank V (valOf p.2)).sum

/-- A duplicate-free chain justifying the stored value `q` at label `A`,
every suffix of which is dominated by the current cell. -/
def GoodPath (rev : OMap RKey (OMap String ℚ)) (cell0 cell : Cell)
    (A : String) (q : ℚ) (P : List String) : Prop :=
  P.Nodup ∧ (∀ x ∈ P, x ∈ uniLabels rev cell0) ∧ P.head? = some A
  ∧ pathVal rev cell0 P = some q
  ∧ ∀ S : List String, S ≠ [] → List.IsSuffix S P →
      ∃ s X it, S.head? = some X ∧ pathVal rev cell0 S = some s
        ∧ olookup cell X = some it ∧ s ≤ valOf it

/-- The invariant maintained by the unary-closure loop. -/
def closureInv (rev : OMap RKey (OMap String ℚ)) (cell0 cell : Cell) :
    Prop :=
  (okeys cell).Nodup ∧ (∀ lab ∈ okeys cell, lab ∈ uniLabels rev cell0)
  ∧ ∀ A it, olookup cell A = some it →
      ∃ q P, it.prob = RVal.num q ∧ 0 ≤ q
        ∧ GoodPath rev cell0 cell A q P

/-- The well-formedness of the reverse index assumed by the amended
claim: unary tables have unrepeated keys and probabilities in [0, 1]. -/
def revOk (rev : OMap RKey (OMap String ℚ)) : Prop :=
  ∀ B m, olookup rev (RKey.seq [B]) = some m →
    (okeys m).Nodup ∧ ∀ A p, olookup m A = some p → 0 ≤ p ∧ p ≤ 1

/-- The well-formedness of the starting cell assumed by the amended
claim: unrepeated keys and non-negative numeric scores. -/
def cellOk (cell : Cell) : Prop :=
  (okeys cell).Nodup ∧ ∀ lab it, olookup cell lab = some it →
    ∃ q, it.prob = RVal.num q ∧ 0 ≤ q

theorem pathVal_suffix_ge (rev : OMap RKey (OMap String ℚ)) (cell0 : Cell)
    (hrev : revOk rev) (hc0 : cellOk cell0) :
    ∀ (P : List String) (q : ℚ), pathVal rev cell0 P = some q →
      0 ≤ q ∧ ∀ S, S ≠ [] → List.IsSuffix S P →
        ∃ s, pathVal rev cell0 S = some s ∧ q ≤ s := by
  intro P
  induction P with
  | nil => intro q h; cases h
  | cons A t ih =>
    intro q h
    cases t with
    | nil =>
      cases hx : olookup cell0 A with
      | none => rw [show pathVal rev cell0 [A] = (olookup cell0 A).map valOf
          from rfl, hx] at h; cases h
      | some it =>
        have hq : q = valOf it := by
          rw [show pathVal rev cell0 [A] = (olookup cell0 A).map valOf
            from rfl, hx] at h
          exact (Option.some.inj h).symm
        obtain ⟨q0, hq0, hq0pos⟩ := hc0.2 A it hx
        have hv : valOf it = q0 := by simp [valOf, hq0]
        constructor
        · rw [hq, hv]; exact hq0pos
        · intro S hS1 hS2
          have hSP : S = [A] := by
            rcases List.suffix_cons_iff.mp hS2 with h' | h'
            · exact h'
            · exact absurd (List.suffix_nil.mp h') hS1
          subst hSP
          exact ⟨q, h, le_refl q⟩
    | cons B rest =>
      have hsplit : ∃ p v, edgeProb rev A B = some p
          ∧ pathVal rev cell0 (B :: rest) = some v ∧ q = p * v := by
        cases he : edgeProb rev A B with
        | none => rw [show pathVal rev cell0 (A :: B :: rest)
              = match edgeProb rev A B, pathVal rev cell0 (B :: rest) with
                | some p, some v => some (p * v) | _, _ => none from rfl,
            he] at h; cases h
        | some p =>
          cases hv : pathVal rev cell0 (B :: rest) with
          | none => rw [show pathVal rev cell0 (A :: B :: rest)
                = match edgeProb rev A B, pathVal rev cell0 (B :: rest) with
                  | some p, some v => some (p * v) | _, _ => none from rfl,
              he, hv] at h; cases h
          | some v =>
            refine ⟨p, v, rfl, rfl, ?_⟩
            rw [show pathVal rev cell0 (A :: B :: rest)
                = match edgeProb rev A B, pathVal rev cell0 (B :: rest) with
                  | some p, some v => some (p * v) | _, _ => none from rfl,
              he, hv] at h
            exact (Option.some.inj h).symm
      obtain ⟨p, v, he, hv, hq⟩ := hsplit
      have hpb : 0 ≤ p ∧ p ≤ 1 := by
        cases hm : olookup rev (RKey.seq [B]) with
        | none => simp [edgeProb, hm] at he
        | some m =>
          have hA : olookup m A = some p := by simpa [edgeProb, hm] using he
          exact (hrev B m hm).2 A p hA
      obtain ⟨hv0, hsuf⟩ := ih v hv
      have hq0 : 0 ≤ q := hq ▸ mul_nonneg hpb.1 hv0
      refine ⟨hq0, ?_⟩
      intro S hS1 hS2
      rcases List.suffix_cons_iff.mp hS2 with h' | h'
      · subst h'
        exact ⟨q, h, le_refl q⟩
      · obtain ⟨s, hs, hvs⟩ := hsuf S hS1 h'
        refine ⟨s, hs, ?_⟩
        have : q ≤ v := by
          rw [hq]
          exact mul_le_of_le_one_left hv0 hpb.2
        linarith

theorem exists_suffix_head {α : Type} :
    ∀ (P : List α) (x : α), x ∈ P →
      ∃ S, S.head? = some x ∧ S ≠ [] ∧ List.IsSuffix S P := by
  intro P
  induction P with
  | nil => intro x h; cases h
  | cons a t ih =>
    intro x h
    rcases List.mem_cons.mp h with h' | h'
    · subst h'
      exact ⟨x :: t, rfl, by simp, List.suffix_refl _⟩
    · obtain ⟨S, h1, h2, h3⟩ := ih x h'
      exact ⟨S, h1, h2, h3.trans (List.suffix_cons a t)⟩

/-- Pointwise domination of stored scores between two cell states. -/
def cellLE (c1 c2 : Cell) : Prop :=
  ∀ lab it, olookup c1 lab = some it →
    ∃ it2, olookup c2 lab = some it2 ∧ valOf it ≤ valOf it2

theorem cellLE_refl (c : Cell) : cellLE c c :=
  fun _ it h => ⟨it, h, le_refl _⟩

theorem cellLE_trans {c1 c2 c3 : Cell} (h12 : cellLE c1 c2)
    (h23 : cellLE c2 c3) : cellLE c1 c3 := by
  intro lab it h
  obtain ⟨it2, h2, hle2⟩ := h12 lab it h
  obtain ⟨it3, h3, hle3⟩ := h23 lab it2 h2
  exact ⟨it3, h3, le_trans hle2 hle3⟩

theorem GoodPath_mono (rev : OMap RKey (OMap String ℚ)) (cell0 c1 c2 : Cell)
    (A : String) (q : ℚ) (P : List String) (h12 : cellLE c1 c2)
    (hg : GoodPath rev cell0 c1 A q P) : GoodPath rev cell0 c2 A q P := by
  obtain ⟨h1, h2, h3, h4, h5⟩ := hg
  refine ⟨h1, h2, h3, h4, ?_⟩
  intro S hS1 hS2
  obtain ⟨s, X, it, hX, hpv, hlook, hle⟩ := h5 S hS1 hS2
  obtain ⟨it2, hlook2, hle2⟩ := h12 X it hlook
  exact ⟨s, X, it2, hX, hpv, hlook2, le_trans hle hle2⟩

theorem filter_length_mono {α : Type} (pq qq : α → Bool) :
    ∀ l : List α, (∀ x ∈ l, pq x = true → qq x = true) →
      (l.filter pq).length ≤ (l.filter qq).length := by
  intro l
  induction l with
  | nil => intro _; simp
  | cons x t ih =>
    intro h
    have ht := ih (fun y hy => h y (List.mem_cons_of_mem _ hy))
    simp only [List.filter_cons]
    by_cases hp : pq x = true
    · rw [if_pos hp, if_pos (h x (List.mem_cons_self _ _) hp)]
      simpa using ht
    · rw [if_neg hp]
      by_cases hq : qq x = true
      · rw [if_pos hq]
        simp only [List.length_cons]
        omega
      · rw [if_neg hq]
        exact ht

theorem valRank_lt (V : List ℚ) (a b : ℚ) (ha : a ∈ V) (hab : a < b) :
    valRank V a < valRank V b := by
  induction V with
  | nil => cases ha
  | cons x t ih =>
    have hmono := filter_length_mono (fun y => decide (y < a))
      (fun y => decide (y < b)) t
      (fun y _ hy => by
        simp only [decide_eq_true_eq] at hy ⊢
        linarith)
    by_cases hx : x = a
    · subst hx
      simp only [valRank, List.filter_cons, decide_eq_true_eq]
      rw [if_neg (lt_irrefl x), if_pos hab]
      exact Nat.lt_succ_of_le hmono
    · have ha2 : a ∈ t := by
        rcases List.mem_cons.mp ha with h2 | h2
        · exact absurd h2.symm hx
        · exact h2
      have hres := ih ha2
      simp only [valRank, List.filter_cons, decide_eq_true_eq] at hres ⊢
      by_cases h1 : x < a
      · rw [if_pos h1, if_pos (lt_trans h1 hab)]
        exact Nat.succ_lt_succ hres
      · rw [if_neg h1]
        by_cases h2 : x < b
        · rw [if_pos h2]
          exact Nat.lt_succ_of_lt hres
        · rw [if_neg h2]
          exact hres

theorem pathVal_mem_pathVals (rev : OMap RKey (OMap String ℚ))
    (cell0 : Cell) (P : List String) (q : ℚ) (hnd : P.Nodup)
    (hsub : ∀ x ∈ P, x ∈ uniLabels rev cell0)
    (hval : pathVal rev cell0 P = some q) : q ∈ pathVals rev cell0 := by
  have hsp : P.Subperm (uniLabels rev cell0) :=
    List.Nodup.subperm hnd (fun x hx => hsub x hx)
  obtain ⟨l, hl1, hl2⟩ := hsp
  apply List.mem_filterMap.mpr
  refine ⟨P, ?_, hval⟩
  apply List.mem_join.mpr
  refine ⟨l.permutations, ?_, ?_⟩
  · exact List.mem_map_of_mem _ (List.mem_sublists.mpr hl2)
  · exact List.mem_permutations.mpr hl1.symm

theorem cellRank_oset_present (V : List ℚ) :
    ∀ (cell : Cell) (a : String) (it itOld : chartItem),
      olookup cell a = some itOld →
      valRank V (valOf itOld) < valRank V (valOf it) →
      cellRank V cell < cellRank V (oset cell a it) := by
  intro cell
  induction cell with
  | nil => intro a it itOld h; cases h
  | cons hd t ih =>
    intro a it itOld h hrank
    obtain ⟨k, v⟩ := hd
    by_cases hk : k = a
    · subst hk
      have hv : v = itOld := by simpa [olookup] using h
      subst hv
      simp only [oset, eq_self_iff_true, if_true, cellRank, List.map_cons,
        List.sum_cons]
      omega
    · have h2 : olookup t a = some itOld := by simpa [olookup, hk] using h
      have h3 := ih a it itOld h2 hrank
      simp only [oset, if_neg hk, cellRank, List.map_cons, List.sum_cons]
      simp only [cellRank] at h3
      omega

theorem cellRank_oset_absent (V : List ℚ) :
    ∀ (cell : Cell) (a : String) (it : chartItem), a ∉ okeys cell →
      cellRank V (oset cell a it)
        = cellRank V cell + (1 + valRank V (valOf it)) := by
  intro cell
  induction cell with
  | nil => intro a it _; simp [oset, cellRank]
  | cons hd t ih =>
    intro a it h
    obtain ⟨k, v⟩ := hd
    rw [okeys_cons] at h
    have hk : k ≠ a := fun hk => h (hk ▸ List.mem_cons_self _ _)
    have ht : a ∉ okeys t := fun h2 => h (List.mem_cons_of_mem _ h2)
    simp only [oset, if_neg hk, cellRank, List.map_cons, List.sum_cons]
    simp only [cellRank] at ih
    rw [ih a it ht]
    omega

theorem valRank_le (V : List ℚ) (q : ℚ) : valRank V q ≤ V.length :=
  List.length_filter_le _ _

theorem nodup_subset_length_le {α : Type} [DecidableEq α]
    (l1 l2 : List α) (hnd : l1.Nodup) (hsub : ∀ x ∈ l1, x ∈ l2) :
    l1.length ≤ l2.length := by
  have h1 : l1.toFinset.card = l1.length := List.toFinset_card_of_nodup hnd
  have h2 : l1.toFinset ⊆ l2.toFinset := by
    intro x hx
    rw [List.mem_toFinset] at hx ⊢
    exact hsub x hx
  calc l1.length = l1.toFinset.card := h1.symm
    _ ≤ l2.toFinset.card := Finset.card_le_card h2
    _ ≤ l2.length := List.toFinset_card_le l2

theorem cellRank_bound (V : List ℚ) :
    ∀ (cell : Cell) (Us : List String), (okeys cell).Nodup →
      (∀ l ∈ okeys cell, l ∈ Us) →
      cellRank V cell ≤ Us.length * (1 + V.length) := by
  intro cell
  induction cell with
  | nil => intro Us _ _; simp [cellRank]
  | cons hd t ih =>
    intro Us hnd hsub
    obtain ⟨k, v⟩ := hd
    rw [okeys_cons] at hnd hsub
    have hkUs : k ∈ Us := hsub k (List.mem_cons_self _ _)
    have hknot : k ∉ okeys t := (List.nodup_cons.mp hnd).1
    -- remove k from Us for the tail
    have htail := ih (Us.erase k) (List.nodup_cons.mp hnd).2 (by
      intro l hl
      apply (List.mem_erase_of_ne ?_).mpr (hsub l (List.mem_cons_of_mem _ hl))
      intro hlk
      exact hknot (hlk ▸ hl))
    have hlen : (Us.erase k).length + 1 = Us.length := by
      rw [List.length_erase_of_mem hkUs]
      have : 1 ≤ Us.length := List.length_pos.mpr (List.ne_nil_of_mem hkUs)
      omega
    simp only [cellRank, List.map_cons, List.sum_cons]
    simp only [cellRank] at htail
    have hr := valRank_le V (valOf v)
    calc 1 + valRank V (valOf v) + (t.map fun p => 1 + valRank V (valOf p.2)).sum
        ≤ 1 + V.length + (Us.erase k).length * (1 + V.length) := by omega
      _ = ((Us.erase k).length + 1) * (1 + V.length) := by ring
      _ = Us.length * (1 + V.length) := by rw [hlen]

theorem mem_uniLabels_of_edge (rev : OMap RKey (OMap String ℚ))
    (cell0 : Cell) (A B : String) (p : ℚ)
    (h : edgeProb rev A B = some p) : A ∈ uniLabels rev cell0 := by
  simp only [edgeProb] at h
  cases hm : olookup rev (RKey.seq [B]) with
  | none => rw [hm] at h; cases h
  | some m =>
    rw [hm] at h
    simp only [Option.bind] at h
    have hmem : (RKey.seq [B], m) ∈ rev := mem_of_olookup_some _ _ _ hm
    have hA : A ∈ okeys m := (olookup_isSome_iff_mem m A).mp (by simp [h])
    apply List.mem_dedup.mpr
    apply List.mem_append.mpr
    right
    simp only [revParents]
    apply List.mem_join.mpr
    exact ⟨okeys m, List.mem_map_of_mem _ hmem, hA⟩

theorem head_mem_of_suffix {α : Type} (S P : List α) (x : α)
    (hS : S.head? = some x) (hsuf : List.IsSuffix S P) : x ∈ P := by
  obtain ⟨pre, hpre⟩ := hsuf
  cases S with
  | nil => cases hS
  | cons y t =>
    have hxy : y = x := Option.some.inj hS
    subst hxy
    rw [← hpre]
    exact List.mem_append.mpr (Or.inr (List.mem_cons_self _ _))

/-- One strict update of the unary closure: replacing (or creating)
`A`'s entry with `p * qB` justified by the edge `A -> (B,)` keeps the
invariant, only raises stored scores, and strictly raises the measure. -/
theorem closureInv_update (rev : OMap RKey (OMap String ℚ)) (cell0 : Cell)
    (hrev : revOk rev) (hc0 : cellOk cell0)
    (cell : Cell) (hinv : closureInv rev cell0 cell)
    (A B : String) (p qB : ℚ) (e : Nat) (itB : chartItem)
    (hB : olookup cell B = some itB) (hitB : itB.prob = RVal.num qB)
    (hedge : edgeProb rev A B = some p) (hp0 : 0 ≤ p) (hp1 : p ≤ 1)
    (hlt : ∀ itA, olookup cell A = some itA → valOf itA < p * qB) :
    closureInv rev cell0 (oset cell A ⟨RVal.num (p * qB), e, [B]⟩)
    ∧ cellLE cell (oset cell A ⟨RVal.num (p * qB), e, [B]⟩)
    ∧ cellRank (pathVals rev cell0) cell
        < cellRank (pathVals rev cell0)
            (oset cell A ⟨RVal.num (p * qB), e, [B]⟩) := by
  obtain ⟨hnd, hkeys, hall⟩ := hinv
  obtain ⟨qB2, PB, hprob, hq0, hgp⟩ := hall B itB hB
  have hqB : qB = qB2 := by
    rw [hitB] at hprob
    exact RVal.num.inj hprob
  subst hqB
  obtain ⟨hPnd, hPsub, hPhead, hPval, hPdom⟩ := hgp
  have hqn0 : 0 ≤ p * qB := mul_nonneg hp0 hq0
  have hqnB : p * qB ≤ qB := mul_le_of_le_one_left hq0 hp1
  have hAnot : A ∉ PB := by
    intro hmem
    obtain ⟨S, hS1, hS2, hS3⟩ := exists_suffix_head PB A hmem
    obtain ⟨s, X, it, hX, hpvS, hlook, hle⟩ := hPdom S hS2 hS3
    have hXA : X = A := by
      rw [hS1] at hX
      exact (Option.some.inj hX).symm
    rw [hXA] at hlook
    obtain ⟨_, hsuf⟩ := pathVal_suffix_ge rev cell0 hrev hc0 PB qB hPval
    obtain ⟨s2, hs2, hqs2⟩ := hsuf S hS2 hS3
    have hss : s = s2 := by
      rw [hpvS] at hs2
      exact Option.some.inj hs2
    rw [← hss] at hqs2
    have hcontra := hlt it hlook
    linarith
  have hLE : cellLE cell (oset cell A ⟨RVal.num (p * qB), e, [B]⟩) := by
    intro lab it hl
    by_cases hla : lab = A
    · rw [hla] at hl
      refine ⟨⟨RVal.num (p * qB), e, [B]⟩, ?_, ?_⟩
      · rw [hla]
        exact olookup_oset_self _ _ _
      · have hv := hlt it hl
        show valOf it ≤ valOf ⟨RVal.num (p * qB), e, [B]⟩
        have hvv : valOf (⟨RVal.num (p * qB), e, [B]⟩ : chartItem) = p * qB := rfl
        rw [hvv]
        exact le_of_lt hv
    · exact ⟨it, by rw [olookup_oset_ne _ _ _ _ (fun h => hla h.symm)]; exact hl,
        le_refl _⟩
  obtain ⟨rest, hPB⟩ : ∃ rest, PB = B :: rest := by
    cases PB with
    | nil => cases hPhead
    | cons h t =>
      have hhB : h = B := Option.some.inj hPhead
      exact ⟨t, by rw [hhB]⟩
  have hP'val : pathVal rev cell0 (A :: PB) = some (p * qB) := by
    rw [hPB] at hPval ⊢
    show (match edgeProb rev A B, pathVal rev cell0 (B :: rest) with
      | some p2, some v => some (p2 * v) | _, _ => none) = some (p * qB)
    rw [hedge, hPval]
  have hAU : A ∈ uniLabels rev cell0 :=
    mem_uniLabels_of_edge rev cell0 A B p hedge
  have hgood : GoodPath rev cell0 (oset cell A ⟨RVal.num (p * qB), e, [B]⟩)
      A (p * qB) (A :: PB) := by
    refine ⟨List.nodup_cons.mpr ⟨hAnot, hPnd⟩, ?_, rfl, hP'val, ?_⟩
    · intro x hx
      rcases List.mem_cons.mp hx with h2 | h2
      · exact h2 ▸ hAU
      · exact hPsub x h2
    · intro S hS1 hS2
      rcases List.suffix_cons_iff.mp hS2 with h2 | h2
      · rw [h2]
        refine ⟨p * qB, A, ⟨RVal.num (p * qB), e, [B]⟩, rfl, hP'val,
          olookup_oset_self _ _ _, le_refl _⟩
      · obtain ⟨s, X, it, hX, hpv, hlook, hle⟩ := hPdom S hS1 h2
        have hXne : X ≠ A := by
          intro hXA
          exact hAnot (hXA ▸ head_mem_of_suffix S PB X hX h2)
        refine ⟨s, X, it, hX, hpv, ?_, hle⟩
        rw [olookup_oset_ne _ _ _ _ (fun h => hXne h.symm)]
        exact hlook
  refine ⟨⟨nodup_okeys_oset _ _ _ hnd, ?_, ?_⟩, hLE, ?_⟩
  · intro lab hl
    rcases (mem_okeys_oset _ _ _ _).mp hl with h2 | h2
    · exact hkeys lab h2
    · exact h2 ▸ hAU
  · intro C itc hlc
    by_cases hca : C = A
    · rw [hca] at hlc ⊢
      rw [olookup_oset_self] at hlc
      obtain rfl := Option.some.inj hlc
      exact ⟨p * qB, A :: PB, rfl, hqn0, hgood⟩
    · rw [olookup_oset_ne _ _ _ _ (fun h => hca h.symm)] at hlc
      obtain ⟨q, P, hq1, hq2, hq3⟩ := hall C itc hlc
      exact ⟨q, P, hq1, hq2, GoodPath_mono rev cell0 _ _ C q P hLE hq3⟩
  · cases hA : olookup cell A with
    | none =>
      have habs : A ∉ okeys cell := by
        intro h
        have hs := (olookup_isSome_iff_mem cell A).mpr h
        rw [hA] at hs
        simp at hs
      rw [cellRank_oset_absent _ _ _ _ habs]
      omega
    | some itA =>
      have hviA := hlt itA hA
      obtain ⟨qA, PA, hA1, hA2, hA3⟩ := hall A itA hA
      have hvA : valOf itA = qA := by simp [valOf, hA1]
      have hmemA : qA ∈ pathVals rev cell0 :=
        pathVal_mem_pathVals rev cell0 PA qA hA3.1 hA3.2.1 hA3.2.2.2.1
      apply cellRank_oset_present _ _ _ _ itA hA
      show valRank _ (valOf itA)
        < valRank _ (valOf ⟨RVal.num (p * qB), e, [B]⟩)
      rw [hvA]
      refine valRank_lt _ qA _ hmemA ?_
      show qA < valOf ⟨RVal.num (p * qB), e, [B]⟩
      have hvv : valOf (⟨RVal.num (p * qB), e, [B]⟩ : chartItem) = p * qB := rfl
      rw [hvv, ← hvA]
      exact hviA

theorem cellGet_present (cell : Cell) (lab : String) (it : chartItem)
    (h : olookup cell lab = some it) : cellGet cell lab = (it, cell) := by
  simp [cellGet, h]

theorem cellGet_absent (cell : Cell) (lab : String)
    (h : olookup cell lab = none) :
    cellGet cell lab = (sentinelItem, oset cell lab sentinelItem) := by
  simp [cellGet, h]

theorem cellLE_mem (c1 c2 : Cell) (h : cellLE c1 c2) (B : String)
    (hB : B ∈ okeys c1) : B ∈ okeys c2 := by
  obtain ⟨it, hit⟩ := Option.isSome_iff_exists.mp
    ((olookup_isSome_iff_mem c1 B).mpr hB)
  obtain ⟨it2, hit2, _⟩ := h B it hit
  exact (olookup_isSome_iff_mem c2 B).mp (by simp [hit2])

theorem unariesParents_spec (rev : OMap RKey (OMap String ℚ)) (cell0 : Cell)
    (hrev : revOk rev) (hc0 : cellOk cell0) (e : Nat)
    (B : String) (m : OMap String ℚ)
    (hm : olookup rev (RKey.seq [B]) = some m) :
    ∀ (parents : List (String × ℚ)) (cell : Cell) (added : Bool),
      (∀ pr ∈ parents, pr ∈ m) →
      closureInv rev cell0 cell → B ∈ okeys cell →
      ∃ cell2 added2,
        unariesParents e B parents cell added = .ok (cell2, added2)
        ∧ closureInv rev cell0 cell2 ∧ cellLE cell cell2
        ∧ (added = true → added2 = true)
        ∧ (added2 = true → added = true
            ∨ cellRank (pathVals rev cell0) cell
                < cellRank (pathVals rev cell0) cell2)
        ∧ cellRank (pathVals rev cell0) cell
            ≤ cellRank (pathVals rev cell0) cell2 := by
  intro parents
  induction parents with
  | nil =>
    intro cell added _ hinv _
    exact ⟨cell, added, rfl, hinv, cellLE_refl cell, fun h => h,
      fun h => Or.inl h, le_refl _⟩
  | cons pr rest ih =>
    intro cell added hmem hinv hBmem
    obtain ⟨A, pAB⟩ := pr
    have hprm : (A, pAB) ∈ m := hmem _ (List.mem_cons_self _ _)
    have hmnd : (okeys m).Nodup := (hrev B m hm).1
    have hpm : olookup m A = some pAB := olookup_of_mem_nodup m A pAB hmnd hprm
    obtain ⟨hp0, hp1⟩ := (hrev B m hm).2 A pAB hpm
    have hedge : edgeProb rev A B = some pAB := by
      simp [edgeProb, hm, hpm]
    obtain ⟨itB, hitB⟩ := Option.isSome_iff_exists.mp
      ((olookup_isSome_iff_mem cell B).mpr hBmem)
    obtain ⟨qB, PB, hqB, hqB0, _⟩ := hinv.2.2 B itB hitB
    have hmul : qMulRval pAB itB.prob = .ok (pAB * qB) := by
      rw [hqB]; rfl
    have hrB : cellGet cell B = (itB, cell) := cellGet_present cell B itB hitB
    cases hA : olookup cell A with
    | some itA =>
      have hrA : cellGet cell A = (itA, cell) := cellGet_present cell A itA hA
      obtain ⟨qA, PA, hqA, hqA0, _⟩ := hinv.2.2 A itA hA
      have hvA : valOf itA = qA := by simp [valOf, hqA]
      by_cases hgt : qA < pAB * qB
      · have hgtb : qGTrval (pAB * qB) itA.prob = true := by
          rw [hqA]
          simpa [qGTrval] using hgt
        have hstep := closureInv_update rev cell0 hrev hc0 cell hinv A B pAB qB
          e itB hitB hqB hedge hp0 hp1
          (by
            intro itA2 hlA2
            rw [hA] at hlA2
            rw [← Option.some.inj hlA2, hvA]
            exact hgt)
        obtain ⟨hinv2, hle2, hrank2⟩ := hstep
        have hBmem2 : B ∈ okeys (oset cell A ⟨RVal.num (pAB * qB), e, [B]⟩) :=
          cellLE_mem _ _ hle2 B hBmem
        obtain ⟨cell2, added2, hrun, hinv3, hle3, hf1, hf2, hle4⟩ :=
          ih (oset cell A ⟨RVal.num (pAB * qB), e, [B]⟩) true
            (fun q hq => hmem q (List.mem_cons_of_mem _ hq)) hinv2 hBmem2
        refine ⟨cell2, added2, ?_, hinv3, cellLE_trans hle2 hle3,
          fun _ => hf1 rfl, ?_, by omega⟩
        · show unariesParents e B ((A, pAB) :: rest) cell added = .ok (cell2, added2)
          simp only [unariesParents, hrB, hmul, hrA, hgtb, if_true]
          exact hrun
        · intro _
          right
          omega
      · have hgtb : qGTrval (pAB * qB) itA.prob = false := by
          rw [hqA]
          simpa [qGTrval] using hgt
        obtain ⟨cell2, added2, hrun, hinv3, hle3, hf1, hf2, hle4⟩ :=
          ih cell added (fun q hq => hmem q (List.mem_cons_of_mem _ hq))
            hinv hBmem
        refine ⟨cell2, added2, ?_, hinv3, hle3, hf1, hf2, hle4⟩
        show unariesParents e B ((A, pAB) :: rest) cell added = .ok (cell2, added2)
        simp only [unariesParents, hrB, hmul, hrA, hgtb, if_false]
        simpa using hrun
    | none =>
      have hrA : cellGet cell A = (sentinelItem, oset cell A sentinelItem) :=
        cellGet_absent cell A hA
      have hgtb : qGTrval (pAB * qB) sentinelItem.prob = true := by
        have : (0 : ℚ) ≤ pAB * qB := mul_nonneg hp0 hqB0
        simp only [sentinelItem, qGTrval]
        simp only [decide_eq_true_eq]
        linarith
      have hstep := closureInv_update rev cell0 hrev hc0 cell hinv A B pAB qB
        e itB hitB hqB hedge hp0 hp1
        (by
          intro itA2 hlA2
          rw [hA] at hlA2
          cases hlA2)
      obtain ⟨hinv2, hle2, hrank2⟩ := hstep
      have hBmem2 : B ∈ okeys (oset cell A ⟨RVal.num (pAB * qB), e, [B]⟩) :=
        cellLE_mem _ _ hle2 B hBmem
      obtain ⟨cell2, added2, hrun, hinv3, hle3, hf1, hf2, hle4⟩ :=
        ih (oset cell A ⟨RVal.num (pAB * qB), e, [B]⟩) true
          (fun q hq => hmem q (List.mem_cons_of_mem _ hq)) hinv2 hBmem2
      refine ⟨cell2, added2, ?_, hinv3, cellLE_trans hle2 hle3,
        fun _ => hf1 rfl, ?_, by omega⟩
      · show unariesParents e B ((A, pAB) :: rest) cell added = .ok (cell2, added2)
        simp only [unariesParents, hrB, hmul, hrA, hgtb, if_true]
        rw [oset_oset_same]
        exact hrun
      · intro _
        right
        omega

theorem unariesPassGo_spec (rev : OMap RKey (OMap String ℚ)) (cell0 : Cell)
    (hrev : revOk rev) (hc0 : cellOk cell0) (e : Nat) :
    ∀ (keys : List String) (cell : Cell) (added : Bool),
      (∀ B ∈ keys, B ∈ okeys cell) →
      closureInv rev cell0 cell →
      ∃ cell2 added2,
        unariesPassGo rev e keys cell added = .ok (cell2, added2)
        ∧ closureInv rev cell0 cell2 ∧ cellLE cell cell2
        ∧ (added = true → added2 = true)
        ∧ (added2 = true → added = true
            ∨ cellRank (pathVals rev cell0) cell
                < cellRank (pathVals rev cell0) cell2)
        ∧ cellRank (pathVals rev cell0) cell
            ≤ cellRank (pathVals rev cell0) cell2 := by
  intro keys
  induction keys with
  | nil =>
    intro cell added _ hinv
    exact ⟨cell, added, rfl, hinv, cellLE_refl cell, fun h => h,
      fun h => Or.inl h, le_refl _⟩
  | cons B rest ih =>
    intro cell added hmem hinv
    cases hB : olookup rev (RKey.seq [B]) with
    | none =>
      obtain ⟨cell2, added2, hrun, hinv2, hle2, hf1, hf2, hle3⟩ :=
        ih cell added (fun b hb => hmem b (List.mem_cons_of_mem _ hb)) hinv
      refine ⟨cell2, added2, ?_, hinv2, hle2, hf1, hf2, hle3⟩
      show unariesPassGo rev e (B :: rest) cell added = .ok (cell2, added2)
      simp only [unariesPassGo, hB]
      exact hrun
    | some m =>
      obtain ⟨cell1, added1, hrun1, hinv1, hle1, hf1a, hf2a, hle1r⟩ :=
        unariesParents_spec rev cell0 hrev hc0 e B m hB m cell added
          (fun pr hpr => hpr) hinv (hmem B (List.mem_cons_self _ _))
      obtain ⟨cell2, added2, hrun2, hinv2, hle2, hf1b, hf2b, hle2r⟩ :=
        ih cell1 added1
          (fun b hb => cellLE_mem cell cell1 hle1 b
            (hmem b (List.mem_cons_of_mem _ hb))) hinv1
      refine ⟨cell2, added2, ?_, hinv2, cellLE_trans hle1 hle2,
        fun h => hf1b (hf1a h), ?_, le_trans hle1r hle2r⟩
      · show unariesPassGo rev e (B :: rest) cell added = .ok (cell2, added2)
        simp only [unariesPassGo, hB, hrun1]
        exact hrun2
      · intro h2
        rcases hf2b h2 with h1 | hr
        · rcases hf2a h1 with h0 | hr0
          · exact Or.inl h0
          · exact Or.inr (lt_of_lt_of_le hr0 hle2r)
        · exact Or.inr (lt_of_le_of_lt hle1r hr)

theorem unariesPass_spec (rev : OMap RKey (OMap String ℚ)) (cell0 : Cell)
    (hrev : revOk rev) (hc0 : cellOk cell0) (e : Nat) (cell : Cell)
    (hinv : closureInv rev cell0 cell) :
    ∃ cell2 added2,
      unariesPass rev e cell = .ok (cell2, added2)
      ∧ closureInv rev cell0 cell2 ∧ cellLE cell cell2
      ∧ (added2 = true →
          cellRank (pathVals rev cell0) cell
            < cellRank (pathVals rev cell0) cell2)
      ∧ cellRank (pathVals rev cell0) cell
          ≤ cellRank (pathVals rev cell0) cell2 := by
  obtain ⟨cell2, added2, hrun, hinv2, hle2, _, hf2, hle3⟩ :=
    unariesPassGo_spec rev cell0 hrev hc0 e (okeys cell) cell false
      (fun b hb => hb) hinv
  refine ⟨cell2, added2, hrun, hinv2, hle2, ?_, hle3⟩
  intro h2
  rcases hf2 h2 with h0 | hr
  · cases h0
  · exact hr

theorem closureInv_init (rev : OMap RKey (OMap String ℚ)) (cell : Cell)
    (hc : cellOk cell) : closureInv rev cell cell := by
  refine ⟨hc.1, ?_, ?_⟩
  · intro lab hl
    exact List.mem_dedup.mpr (List.mem_append_left _ hl)
  · intro A it hl
    obtain ⟨q, hq, hq0⟩ := hc.2 A it hl
    have hAmem : A ∈ uniLabels rev cell := by
      refine List.mem_dedup.mpr (List.mem_append_left _ ?_)
      exact (olookup_isSome_iff_mem cell A).mp (by simp [hl])
    have hval : valOf it = q := by simp [valOf, hq]
    refine ⟨q, [A], hq, hq0, ?_, ?_, rfl, ?_, ?_⟩
    · exact List.nodup_singleton A
    · intro x hx
      rw [List.mem_singleton.mp hx]
      exact hAmem
    · simp [pathVal, hl, hval]
    · intro S hne hsuf
      obtain ⟨t, ht⟩ := hsuf
      have hlen : t.length + S.length = 1 := by
        have := congrArg List.length ht
        simpa using this
      have hSpos : 0 < S.length := List.length_pos.mpr hne
      have htlen : t.length = 0 := by omega
      have ht0 : t = [] := List.length_eq_zero.mp htlen
      rw [ht0, List.nil_append] at ht
      refine ⟨q, A, it, ?_, ?_, hl, ?_⟩
      · rw [ht]; rfl
      · rw [ht]; simp [pathVal, hl, hval]
      · rw [hval]

theorem check_unaries_enough (rev : OMap RKey (OMap String ℚ))
    (cell0 : Cell) (hrev : revOk rev) (hc0 : cellOk cell0) (e : Nat) :
    ∀ (fuel : Nat) (cell : Cell), closureInv rev cell0 cell →
      (uniLabels rev cell0).length * (1 + (pathVals rev cell0).length)
        < cellRank (pathVals rev cell0) cell + fuel →
      ∃ cell2, check_unaries fuel rev e cell = .ok cell2 := by
  intro fuel
  induction fuel with
  | zero =>
    intro cell hinv hlt
    have hb := cellRank_bound (pathVals rev cell0) cell
      (uniLabels rev cell0) hinv.1 hinv.2.1
    omega
  | succ fuel ih =>
    intro cell hinv hlt
    obtain ⟨cell1, added1, hrun, hinv1, _, hf, hle⟩ :=
      unariesPass_spec rev cell0 hrev hc0 e cell hinv
    cases hadd : added1 with
    | false =>
      refine ⟨cell1, ?_⟩
      show check_unaries (fuel + 1) rev e cell = .ok cell1
      rw [hadd] at hrun
      simp only [check_unaries, hrun]
      rfl
    | true =>
      have hr := hf hadd
      obtain ⟨cell2, hrun2⟩ := ih cell1 hinv1 (by omega)
      refine ⟨cell2, ?_⟩
      show check_unaries (fuel + 1) rev e cell = .ok cell2
      rw [hadd] at hrun
      simp only [check_unaries, hrun, if_true]
      exact hrun2

/-- A reverse index outside the claim's implicit admissible range: the
unary rule `A -> (A,)` with weight 2. -/
def revDouble : OMap RKey (OMap String ℚ) := [(RKey.seq ["A"], [("A", 2)])]

theorem check_unaries_double_fuelOut :
    ∀ (fuel : Nat) (v : ℚ) (s : Nat) (ch : List String), 0 < v →
      check_unaries fuel revDouble 1 [("A", ⟨RVal.num v, s, ch⟩)]
        = .fuelOut := by
  intro fuel
  induction fuel with
  | zero => intro v s ch _; rfl
  | succ fuel ih =>
    intro v s ch hv
    have hlt : qGTrval (2 * v) (RVal.num v) = true := by
      simp only [qGTrval, decide_eq_true_eq]
      linarith
    have hpass : unariesPass revDouble 1 [("A", ⟨RVal.num v, s, ch⟩)]
        = .ok ([("A", ⟨RVal.num (2 * v), 1, ["A"]⟩)], true) := by
      simp [unariesPass, unariesPassGo, okeys, revDouble, olookup,
        unariesParents, cellGet, qMulRval, oset, hlt]
    simp only [check_unaries, hpass, if_true]
    exact ih (2 * v) 1 ["A"] (by linarith)

/-- C9 counterexample: read literally over "every grammar", the claim
fails.  With the unary rule `A -> (A,)` of weight 2 in the reverse
index (a weight no grammar returned by a correct induction would carry,
but nothing in `check_unaries` checks it), every update strictly
increases the score yet the loop never reaches a fixpoint: the score of
`"A"` doubles each pass, so no fuel makes `check_unaries` return. -/
theorem c9_counterexample :
    ¬ ∃ fuel cell2,
        check_unaries fuel revDouble 1 [("A", ⟨RVal.num 1, 1, ["a"]⟩)]
          = .ok cell2 := by
  rintro ⟨fuel, cell2, h⟩
  rw [check_unaries_double_fuelOut fuel 1 1 ["a"] one_pos] at h
  cases h

/-- C9 (amended): for every reverse index whose unary tables have
unrepeated keys and probabilities in `[0, 1]` (`revOk`, true of every
index built by `deduce_grammar`'s normalisation) and every cell with
unrepeated keys and non-negative numeric scores (`cellOk`), the
`while added` loop of `check_unaries` terminates: some finite fuel
makes the model return `.ok`.  Each update replaces a score with a
strictly greater value, every stored score is the weight of a
duplicate-free unary chain over a finite label set, so the finite
measure `cellRank` strictly increases on every updating pass and a
pass with no update ends the loop. -/
theorem c9_unary_closure_terminates_on_admissible_cells
    (rev : OMap RKey (OMap String ℚ)) (e : Nat) (cell : Cell)
    (hrev : revOk rev) (hcell : cellOk cell) :
    ∃ fuel cell2, check_unaries fuel rev e cell = .ok cell2 := by
  refine ⟨(uniLabels rev cell).length * (1 + (pathVals rev cell).length)
    + 1, ?_⟩
  exact check_unaries_enough rev cell hrev hcell e _ cell
    (closureInv_init rev cell hcell) (by omega)

/-- A small admissible reverse index and cell for the C9 witness: the
unary rule `B -> ...` read as `A -> (B,)` with probability 1/2, and a
cell holding `B` with score 1. -/
def revUnit : OMap RKey (OMap String ℚ) :=
  [(RKey.seq ["B"], [("A", 1/2)])]

def cellUnit : Cell := [("B", ⟨RVal.num 1, 1, ["b"]⟩)]

/-- Witness for `c9_unary_closure_terminates_on_admissible_cells` at
the concrete admissible index `revUnit` and cell `cellUnit`. -/
theorem c9_witness :
    ∃ fuel cell2, check_unaries fuel revUnit 1 cellUnit = .ok cell2 :=
  c9_unary_closure_terminates_on_admissible_cells revUnit 1 cellUnit
    (by
      intro B m hm
      simp only [revUnit, olookup] at hm
      split at hm
      · constructor
        · rw [← Option.some.inj hm]; decide
        · intro A p hp
          rw [← Option.some.inj hm] at hp
          simp only [olookup] at hp
          split at hp
          · rw [← Option.some.inj hp]; norm_num
          · cases hp
      · cases hm)
    (⟨by decide, by
      intro lab it h
      simp only [cellUnit, olookup] at h
      split at h
      · exact ⟨1, by rw [← Option.some.inj h], by norm_num⟩
      · cases h⟩)
